import Mathlib

/-!
# bookie: offset aggregation, flush batching and view reconstruction

A shallow embedding of `offsets.add` and `offsets.flush` (offsets.go), of the
grouping loop of `mariaDB.getLastNFSMs` (mariadb.go) and of the request
validation of `serverHandler.latest` (endpoint.go), followed by the theorems
that settle the claims C1 to C10 about them.

Modelling conventions.

* A Go `map[K]V` is a list of key/value pairs (`GoMap`).  Reading a key returns
  the first binding, writing a key replaces the first binding or adds a new one,
  so a map built by the program never holds a key twice.
* The order of a Go `range` over a map is unspecified.  Every loop over a map
  therefore runs over `ord.perm m`, where `ord : RangeOrder` is an arbitrary
  rearrangement of the bindings; theorems quantify over `ord`.
* `int32` and `int64` values are kept in `Int`.  The only arithmetic the
  embedded code does on them is `count + 1` in `offsets.add`, an `int64`
  addition: it is `wrapInt64 (count + 1)`, which wraps from `2^63 - 1` to
  `-2^63` as the Go addition does.
* `time.Now()` is an argument of the call (`now`).
-/

namespace Bookie

/-! ## Go maps -/

/-- A Go map as a list of bindings. -/
abbrev GoMap (K V : Type) := List (K × V)

instance instDecidableEqGoMap {K V : Type} [DecidableEq K] [DecidableEq V] :
    DecidableEq (GoMap K V) :=
  inferInstanceAs (DecidableEq (List (K × V)))

/-- The read `m[k]` with its `ok` flag: the first binding of `k`, if any. -/
def GoMap.get? {K V : Type} [DecidableEq K] : GoMap K V → K → Option V
  | [], _ => none
  | (k', v) :: rest, k => if k' = k then some v else GoMap.get? rest k

/-- The write `m[k] = v`: replaces the binding of `k`, or adds one. -/
def GoMap.set {K V : Type} [DecidableEq K] : GoMap K V → K → V → GoMap K V
  | [], k, v => [(k, v)]
  | (k', v') :: rest, k, v =>
    if k' = k then (k, v) :: rest else (k', v') :: GoMap.set rest k v

/-- The keys of a map, in the order of its bindings. -/
def GoMap.keys {K V : Type} (m : GoMap K V) : List K := m.map Prod.fst

/-- An iteration order for `range` over a map: any rearrangement of the
bindings. -/
structure RangeOrder where
  /-- The order in which the bindings are visited. -/
  perm : {α : Type} → List α → List α
  /-- Every binding is visited exactly once. -/
  isPerm : ∀ {α : Type} (l : List α), (perm l).Perm l

/-- The iteration order that visits the bindings as they are stored. -/
def RangeOrder.stored : RangeOrder := ⟨fun l => l, fun l => List.Perm.refl l⟩

/-- The iteration order that visits the bindings backwards. -/
def RangeOrder.backwards : RangeOrder := ⟨fun l => l.reverse, fun l => List.reverse_perm l⟩

/-! ## offsets.go -/

/-- A point in time (`time.Time`). -/
abbrev Time := Nat

/-- The value of an `int64` computation whose exact result is `x`: the
representative of `x` modulo `2^64` in the range from `-2^63` to `2^63 - 1`. -/
def wrapInt64 (x : Int) : Int :=
  (x + 9223372036854775808) % 18446744073709551616 - 9223372036854775808

/-- The struct `offsetInfo`. -/
structure offsetInfo where
  startOffset : Int
  lastOffset : Int
  count : Int
  updated : Time
  deriving DecidableEq

/-- The three-level map held by `offsets`. -/
abbrev Window := GoMap String (GoMap String (GoMap Int offsetInfo))

/-- The struct `offsets`; `none` is the nil map. -/
structure offsets where
  o : Option Window
  deriving DecidableEq

/-- A value of a query's `[]interface{}` argument list. -/
inductive Value where
  | str (s : String)
  | int32 (n : Int)
  | int64 (n : Int)
  | time (t : Time)
  deriving DecidableEq

/-- Modelled from the spec: the declaration of the struct `query` is not in the
embedded files; its fields are the ones `flush` sets, the statement of a batch
upsert and its arguments. -/
structure query where
  sql : String
  values : List Value
  deriving DecidableEq

/-- The helpers `offsets.go` calls and that are declared outside the embedded
files; they are parameters of the embedding. -/
structure Helpers where
  concatKeys : String → String → String
  extractKeys : String → String × String
  buildInsertTuples : Nat → Nat → String

/-- The bindings of the window, the nil map having none. -/
def offsets.window (o : offsets) : Window := o.o.getD []

/-- The method `offsets.add`, with `time.Now()` passed as `now`.  The count of
an existing summary is incremented in `int64`. -/
def offsets.add (H : Helpers) (o : offsets) (fsmId fsmAlias topic : String)
    (topic_partition : Int) (offset : Int) (now : Time) : offsets :=
  let m : Window := match o.o with
    | none => []
    | some m => m
  let oi : offsetInfo :=
    { startOffset := offset, lastOffset := offset, count := 1, updated := now }
  let key := H.concatKeys fsmId fsmAlias
  match m.get? key with
  | none => ⟨some (m.set key [(topic, [(topic_partition, oi)])])⟩
  | some aux =>
    match aux.get? topic with
    | none => ⟨some (m.set key (aux.set topic [(topic_partition, oi)]))⟩
    | some aux2 =>
      match aux2.get? topic_partition with
      | none => ⟨some (m.set key (aux.set topic (aux2.set topic_partition oi)))⟩
      | some old =>
        ⟨some (m.set key (aux.set topic (aux2.set topic_partition
          { startOffset := old.startOffset
            lastOffset := offset
            count := wrapInt64 (old.count + 1)
            updated := oi.updated })))⟩

/-- One call of `offsets.add`. -/
structure AddCall where
  fsmId : String
  fsmAlias : String
  topic : String
  topic_partition : Int
  offset : Int
  now : Time
  deriving DecidableEq

/-- Performs one recorded call. -/
def offsets.addCall (H : Helpers) (o : offsets) (c : AddCall) : offsets :=
  o.add H c.fsmId c.fsmAlias c.topic c.topic_partition c.offset c.now

/-- Performs a sequence of calls, first to last. -/
def offsets.addAll (H : Helpers) (o : offsets) (cs : List AddCall) : offsets :=
  cs.foldl (offsets.addCall H) o

/-- The summary the window holds for a key, topic and partition. -/
def offsets.lookup (o : offsets) (key topic : String) (topic_partition : Int) :
    Option offsetInfo :=
  match o.window.get? key with
  | none => none
  | some aux =>
    match aux.get? topic with
    | none => none
    | some aux2 => aux2.get? topic_partition

/-- The 7 arguments one summary contributes to a batch. -/
def rowValues (ident topic : String) (topic_partition : Int) (oi : offsetInfo) :
    List Value :=
  [Value.str ident, Value.str topic, Value.int32 topic_partition,
   Value.int64 oi.startOffset, Value.int64 oi.lastOffset, Value.int64 oi.count,
   Value.time oi.updated]

/-- The statement `flush` builds for a batch of `rows` rows for
`bookie.tmpOffset`. -/
def tmpOffsetSql (H : Helpers) (rows : Nat) : String :=
  "INSERT INTO bookie.tmpOffset(fsmAlias, topic, topic_partition, startOffset, lastOffset, count, updated) VALUES " ++
    H.buildInsertTuples 7 rows ++
    " ON DUPLICATE KEY UPDATE lastOffset = VALUES(lastOffset), count = count + VALUES(count), updated = UTC_TIMESTAMP"

/-- The statement `flush` builds for a batch of `rows` rows for
`bookie.offset`. -/
def offsetSql (H : Helpers) (rows : Nat) : String :=
  "INSERT INTO bookie.offset(fsmID, topic, topic_partition, startOffset, lastOffset, count, updated) VALUES " ++
    H.buildInsertTuples 7 rows ++
    " ON DUPLICATE KEY UPDATE lastOffset = VALUES(lastOffset), count = count + VALUES(count), updated = UTC_TIMESTAMP"

/-- The body of the innermost loop of `flush`: one summary is appended to
`tmpVs` when the extracted `fsmId` is empty, to `vs` otherwise.  The state is
the pair `(vs, tmpVs)`. -/
def flushEntry (H : Helpers) (key topic : String) (acc : List Value × List Value)
    (e : Int × offsetInfo) : List Value × List Value :=
  let ks := H.extractKeys key
  if ks.1 = "" then
    (acc.1, acc.2 ++ rowValues ks.2 topic e.1 e.2)
  else
    (acc.1 ++ rowValues ks.1 topic e.1 e.2, acc.2)

/-- The loop over the partitions of one topic. -/
def flushTopic (H : Helpers) (ord : RangeOrder) (key : String)
    (acc : List Value × List Value) (e : String × GoMap Int offsetInfo) :
    List Value × List Value :=
  (ord.perm e.2).foldl (flushEntry H key e.1) acc

/-- The loop over the topics of one key. -/
def flushKey (H : Helpers) (ord : RangeOrder) (acc : List Value × List Value)
    (e : String × GoMap String (GoMap Int offsetInfo)) : List Value × List Value :=
  (ord.perm e.2).foldl (flushTopic H ord e.1) acc

/-- The method `offsets.flush`: the window after the call and the returned
queries. -/
def offsets.flush (H : Helpers) (ord : RangeOrder) (o : offsets) : offsets × List query :=
  let qs : List query := []
  if o.window.length = 0 then (o, qs) else
  let acc := (ord.perm o.window).foldl (flushKey H ord) ([], [])
  let vs := acc.1
  let tmpVs := acc.2
  let o' : offsets := ⟨none⟩
  let qs := if tmpVs.length > 0 then
      qs ++ [{
        sql := "INSERT INTO bookie.tmpOffset(fsmAlias, topic, topic_partition, startOffset, lastOffset, count, updated) VALUES " ++
          H.buildInsertTuples 7 (tmpVs.length / 7) ++
          " ON DUPLICATE KEY UPDATE lastOffset = VALUES(lastOffset), count = count + VALUES(count), updated = UTC_TIMESTAMP"
        values := tmpVs }]
    else qs
  let qs := if vs.length > 0 then
      qs ++ [{
        sql := "INSERT INTO bookie.offset(fsmID, topic, topic_partition, startOffset, lastOffset, count, updated) VALUES " ++
          H.buildInsertTuples 7 (vs.length / 7) ++
          " ON DUPLICATE KEY UPDATE lastOffset = VALUES(lastOffset), count = count + VALUES(count), updated = UTC_TIMESTAMP"
        values := vs }]
    else qs
  (o', qs)

/-- Whether a call addresses the summary of `key`, `topic` and `topic_partition`,
the key of a call being `concatKeys(fsmId, fsmAlias)`. -/
def AddCall.targets (H : Helpers) (key topic : String) (topic_partition : Int)
    (c : AddCall) : Bool :=
  decide (H.concatKeys c.fsmId c.fsmAlias = key ∧ c.topic = topic ∧
    c.topic_partition = topic_partition)

/-- What one call does to the summary it addresses: create it, or fold the call
into it. -/
def foldCall (cur : Option offsetInfo) (c : AddCall) : Option offsetInfo :=
  match cur with
  | none => some { startOffset := c.offset, lastOffset := c.offset, count := 1, updated := c.now }
  | some old =>
    some { startOffset := old.startOffset, lastOffset := c.offset,
           count := wrapInt64 (old.count + 1), updated := c.now }

/-- The summary the claim describes for the calls `ts` that address one key,
topic and partition: none without a call, otherwise the offset of the first
call, the offset and time of the last call, and the number of calls as the
`int64` it is counted in (the number itself below `2^63`). -/
def summaryOf (ts : List AddCall) : Option offsetInfo :=
  match ts.head?, ts.getLast? with
  | some f, some l =>
    some { startOffset := f.offset, lastOffset := l.offset, count := wrapInt64 ts.length,
           updated := l.now }
  | _, _ => none

/-- One summary of a window together with the key, topic and partition it is
stored under. -/
structure Entry where
  key : String
  topic : String
  topic_partition : Int
  info : offsetInfo
  deriving DecidableEq

/-- The summaries stored under one topic of one key. -/
def topicEntries (key : String) (e : String × GoMap Int offsetInfo) : List Entry :=
  e.2.map fun pe => { key := key, topic := e.1, topic_partition := pe.1, info := pe.2 }

/-- The summaries stored under one key. -/
def keyEntries (e : String × GoMap String (GoMap Int offsetInfo)) : List Entry :=
  e.2.flatMap (topicEntries e.1)

/-- All summaries of a window, in the order of its bindings. -/
def entriesOf (w : Window) : List Entry := w.flatMap keyEntries

/-- All summaries of a window, in the order in which the three nested loops of
`flush` visit them under the iteration order `ord`. -/
def visited (ord : RangeOrder) (w : Window) : List Entry :=
  (ord.perm w).flatMap fun e =>
    (ord.perm e.2).flatMap fun e2 =>
      (ord.perm e2.2).map fun pe =>
        { key := e.1, topic := e2.1, topic_partition := pe.1, info := pe.2 }

/-- An entry is pending when the `fsmId` extracted from its key is empty. -/
def Entry.pending (H : Helpers) (e : Entry) : Bool :=
  decide ((H.extractKeys e.key).1 = "")

/-- An entry is resolved when the `fsmId` extracted from its key is not empty. -/
def Entry.resolved (H : Helpers) (e : Entry) : Bool :=
  !e.pending H

/-- The row of a pending entry: the extracted alias, then topic, partition,
start offset, last offset, count and update time. -/
def Entry.pendingRow (H : Helpers) (e : Entry) : List Value :=
  rowValues (H.extractKeys e.key).2 e.topic e.topic_partition e.info

/-- The row of a resolved entry: the extracted `fsmId`, then topic, partition,
start offset, last offset, count and update time. -/
def Entry.resolvedRow (H : Helpers) (e : Entry) : List Value :=
  rowValues (H.extractKeys e.key).1 e.topic e.topic_partition e.info

/-- The batch for `bookie.tmpOffset` holding one row per given entry. -/
def pendingBatch (H : Helpers) (es : List Entry) : query :=
  { sql := tmpOffsetSql H es.length, values := es.flatMap (Entry.pendingRow H) }

/-- The batch for `bookie.offset` holding one row per given entry. -/
def resolvedBatch (H : Helpers) (es : List Entry) : query :=
  { sql := offsetSql H es.length, values := es.flatMap (Entry.resolvedRow H) }

/-- The batches the claims describe for the entries `es` in visiting order: the
pending batch when some entry is pending, then the resolved batch when some
entry is resolved. -/
def batchesOf (H : Helpers) (es : List Entry) : List query :=
  (if es.filter (Entry.pending H) = [] then []
    else [pendingBatch H (es.filter (Entry.pending H))]) ++
  (if es.filter (Entry.resolved H) = [] then []
    else [resolvedBatch H (es.filter (Entry.resolved H))])

/-- A query is a batch for `bookie.tmpOffset`. -/
def query.isPending (H : Helpers) (q : query) : Prop := ∃ n, q.sql = tmpOffsetSql H n

/-- A query is a batch for `bookie.offset`. -/
def query.isResolved (H : Helpers) (q : query) : Prop := ∃ n, q.sql = offsetSql H n

/-- The number of calls a window accounts for: the sum of the counts of its
entries. -/
def totalCount (w : Window) : Int := ((entriesOf w).map fun e => e.info.count).sum

/-! ## mariadb.go -/

/-- Modelled from the spec: the declaration of the struct `partition` is not in
the embedded files; its fields are the ones `getLastNFSMs` sets, the
`{start, end, count}` of a partition in the nested view. -/
structure partition where
  Start : Int
  End : Int
  Count : Int
  deriving DecidableEq

/-- Modelled from the spec: the declaration of the struct `topic` is not in the
embedded files; its fields are the ones `getLastNFSMs` sets, the mapping from
partition number to `{start, end, count}` and a count. -/
structure topic where
  Partitions : GoMap Int partition
  Count : Int
  deriving DecidableEq

/-- Modelled from the spec: the declaration of the struct `fsm` is not in the
embedded files; its fields are the ones `getLastNFSMs` sets, the identity, its
creation time and its topics. -/
structure fsm where
  ID : String
  Created : Time
  Topics : GoMap String topic
  deriving DecidableEq

/-- The columns `getLastNFSMs` scans from one row of its query. -/
structure Row where
  fsmID : String
  created : Time
  topicValue : String
  partitionValue : Int
  startOffset : Int
  lastOffset : Int
  count : Int
  deriving DecidableEq

/-- What the store answers to the query of `getLastNFSMs`: an error, or the rows
in the store's order, each of which scans successfully or fails. -/
abbrev QueryResult := Except String (List (Except String Row))

/-- The body of the scan loop of `getLastNFSMs` after a successful `Scan`.

`fsmMap[fsmID]`, `f.Topics[topicValue]` hold structs whose map fields are
references: the writes `f.Topics[topicValue] = t` and
`t.Partitions[partitionValue] = p` go to the maps reachable from `fsmMap`.  The
embedding therefore stores the updated topic and view back under their keys.
A partition is written only when the topic has none under that number. -/
def groupRow (fsmMap : GoMap String fsm) (r : Row) : GoMap String fsm :=
  let f : fsm := match fsmMap.get? r.fsmID with
    | some f => f
    | none => { ID := r.fsmID, Created := r.created, Topics := [] }
  let t : topic := match f.Topics.get? r.topicValue with
    | some t => t
    | none => { Partitions := [], Count := 0 }
  let partitions : GoMap Int partition := match t.Partitions.get? r.partitionValue with
    | some _ => t.Partitions
    | none => t.Partitions.set r.partitionValue
        { Start := r.startOffset, End := r.lastOffset, Count := r.count }
  fsmMap.set r.fsmID
    { f with Topics := f.Topics.set r.topicValue { t with Partitions := partitions } }

/-- The scan loop of `getLastNFSMs`: it stops at the first row that fails to
scan. -/
def scanRows : GoMap String fsm → List (Except String Row) → Except String (GoMap String fsm)
  | fsmMap, [] => Except.ok fsmMap
  | _, Except.error err :: _ => Except.error err
  | fsmMap, Except.ok r :: rest => scanRows (groupRow fsmMap r) rest

/-- The method `mariaDB.getLastNFSMs`: the returned slice and error.  `store` is
the answer of the store to the query with limit `n`. -/
def getLastNFSMs (ord : RangeOrder) (store : Int → QueryResult) (n : Int) :
    List fsm × Option String :=
  let fsms : List fsm := []
  match store n with
  | Except.error err => (fsms, some err)
  | Except.ok dbRows =>
    match scanRows [] dbRows with
    | Except.error err => (fsms, some err)
    | Except.ok fsmMap => ((ord.perm fsmMap).foldl (fun fsms e => fsms ++ [e.2]) fsms, none)

/-- A store that answers every query with the given rows, all of which scan. -/
def storeOf (rows : List Row) : Int → QueryResult :=
  fun _ => Except.ok (rows.map Except.ok)

/-- The identities of a row sequence in the order of their first appearance. -/
def firstAppearances : List String → List String
  | [] => []
  | x :: xs => x :: (firstAppearances xs).filter fun y => y ≠ x

/-- The partition entry a view holds for a topic and partition number. -/
def fsm.partitionAt (f : fsm) (topicValue : String) (partitionValue : Int) :
    Option partition :=
  match f.Topics.get? topicValue with
  | none => none
  | some t => t.Partitions.get? partitionValue

/-- The partition entry made of the offsets and count of a row. -/
def Row.partition (r : Row) : partition :=
  { Start := r.startOffset, End := r.lastOffset, Count := r.count }

/-- Two rows carry the same `(fsmID, topic, partition)`. -/
def Row.sameKey (r r' : Row) : Bool :=
  decide (r'.fsmID = r.fsmID ∧ r'.topicValue = r.topicValue ∧
    r'.partitionValue = r.partitionValue)

/-- The partition entry the scan loop's map holds for an identity, topic and
partition number. -/
def partitionIn (m : GoMap String fsm) (fsmID topicValue : String) (partitionValue : Int) :
    Option partition :=
  match m.get? fsmID with
  | none => none
  | some f => f.partitionAt topicValue partitionValue

/-- The topic the scan loop's map holds for an identity and topic name. -/
def topicIn (m : GoMap String fsm) (fsmID topicValue : String) : Option topic :=
  match m.get? fsmID with
  | none => none
  | some f => f.Topics.get? topicValue

/-! ## endpoint.go -/

/-- The function `strconv.Atoi` of the Go standard library, after its
documentation: an optional sign followed by one or more decimal digits, the
value lying in the range of `int` (64 bits); anything else is an error. -/
def Atoi (s : String) : Option Int :=
  let signed : Bool × List Char := match s.data with
    | '-' :: ds => (true, ds)
    | '+' :: ds => (false, ds)
    | ds => (false, ds)
  if signed.2 = [] ∨ ¬ (signed.2.all fun ch => decide ('0' ≤ ch ∧ ch ≤ '9')) = true then none
  else
    let v : Nat := signed.2.foldl (fun acc ch => acc * 10 + (ch.toNat - 48)) 0
    let n : Int := if signed.1 then -(v : Int) else (v : Int)
    if n < -(2 : Int) ^ 63 ∨ n > (2 : Int) ^ 63 - 1 then none else some n

/-- What a request to `latest` leads to: the status of the reply and the
argument of the call of `getLastNFSMs`, if it was called. -/
structure LatestOutcome where
  status : Nat
  queried : Option Int
  deriving DecidableEq

/-- The method `serverHandler.latest`.  `ns` is `r.URL.Query().Get("n")`, empty
when the parameter is absent; `lastN` is `h.db.getLastNFSMs` and `marshal` is
`json.Marshal`. -/
def serverHandler.latest (lastN : Int → List fsm × Option String)
    (marshal : List fsm → Except String String) (ns : String) : LatestOutcome :=
  let ns := if ns = "" then "10" else ns
  match Atoi ns with
  | none => { status := 500, queried := none }
  | some n =>
    match lastN n with
    | (_, some _) => { status := 500, queried := some n }
    | (fsms, none) =>
      match marshal fsms with
      | Except.error _ => { status := 500, queried := some n }
      | Except.ok _ => { status := 200, queried := some n }

/-- A sample implementation of the helpers, used to run the embedding on
concrete inputs: keys are joined with `|` and split at the first `|`. -/
def Helpers.sample : Helpers where
  concatKeys := fun fsmId fsmAlias => fsmId ++ "|" ++ fsmAlias
  extractKeys := fun key =>
    (String.mk (key.data.takeWhile fun ch => ch != '|'),
     String.mk ((key.data.dropWhile fun ch => ch != '|').drop 1))
  buildInsertTuples := fun cols rows =>
    String.intercalate "," (List.replicate rows
      ("(" ++ String.intercalate "," (List.replicate cols "?") ++ ")"))

/-! ## Go maps: reads after writes -/

theorem GoMap.get?_set {K V : Type} [DecidableEq K] (m : GoMap K V) (k k' : K) (v : V) :
    (m.set k v).get? k' = if k = k' then some v else m.get? k' := by
  induction m with
  | nil => simp [GoMap.set, GoMap.get?]
  | cons hd tl ih =>
    obtain ⟨a, b⟩ := hd
    by_cases h : a = k
    · subst h
      by_cases h' : a = k' <;> simp [GoMap.set, GoMap.get?, h']
    · by_cases h' : a = k'
      · subst h'
        have : ¬ k = a := fun e => h e.symm
        simp [GoMap.set, GoMap.get?, h, this]
      · simp [GoMap.set, GoMap.get?, h, h', ih]

theorem GoMap.get?_set_self {K V : Type} [DecidableEq K] (m : GoMap K V) (k : K) (v : V) :
    (m.set k v).get? k = some v := by
  simp [GoMap.get?_set]

theorem GoMap.get?_set_ne {K V : Type} [DecidableEq K] (m : GoMap K V) {k k' : K} (v : V)
    (h : k ≠ k') : (m.set k v).get? k' = m.get? k' := by
  simp [GoMap.get?_set, h]

/-! ## int64 arithmetic -/

theorem wrapInt64_of_range {x : Int} (hlo : -9223372036854775808 ≤ x)
    (hhi : x < 9223372036854775808) : wrapInt64 x = x := by
  unfold wrapInt64
  omega

theorem wrapInt64_natCast {n : Nat} (h : n < 2 ^ 63) : wrapInt64 (n : Int) = n := by
  have h' : n < 9223372036854775808 := by simpa using h
  apply wrapInt64_of_range <;> omega

theorem wrapInt64_wrapInt64_add (a b : Int) : wrapInt64 (wrapInt64 a + b) = wrapInt64 (a + b) := by
  unfold wrapInt64
  omega

theorem wrapInt64_one : wrapInt64 1 = 1 := by decide

/-! ## offsets.add -/

theorem offsets.window_mk_some (m : Window) : (offsets.mk (some m)).window = m := rfl

theorem offsets.window_nil : (offsets.mk none).window = [] := rfl

/-- One call changes the summary it addresses by `foldCall` and leaves every
other summary as it is. -/
theorem offsets.lookup_addCall (H : Helpers) (o : offsets) (c : AddCall)
    (key topic : String) (p : Int) :
    (o.addCall H c).lookup key topic p =
      if c.targets H key topic p then foldCall (o.lookup key topic p) c
      else o.lookup key topic p := by
  suffices h : ∀ m : Window,
      ((offsets.mk (some m)).addCall H c).lookup key topic p =
        if c.targets H key topic p then foldCall ((offsets.mk (some m)).lookup key topic p) c
        else (offsets.mk (some m)).lookup key topic p by
    obtain ⟨ow⟩ := o
    cases ow with
    | none => exact h []
    | some m => exact h m
  intro m
  simp only [offsets.addCall, offsets.add, offsets.lookup, AddCall.targets,
    offsets.window_mk_some]
  cases h1 : m.get? (H.concatKeys c.fsmId c.fsmAlias) with
  | none =>
    by_cases hk : H.concatKeys c.fsmId c.fsmAlias = key
    · subst hk
      by_cases ht : c.topic = topic
      · subst ht
        by_cases hp : c.topic_partition = p
        · simp [offsets.window_mk_some, h1, GoMap.get?_set, GoMap.get?, hp, foldCall]
        · simp [offsets.window_mk_some, h1, GoMap.get?_set, GoMap.get?, hp]
      · simp [offsets.window_mk_some, h1, GoMap.get?_set, GoMap.get?, ht]
    · simp [offsets.window_mk_some, h1, GoMap.get?_set, hk]
  | some aux =>
    cases h2 : aux.get? c.topic with
    | none =>
      by_cases hk : H.concatKeys c.fsmId c.fsmAlias = key
      · subst hk
        by_cases ht : c.topic = topic
        · subst ht
          by_cases hp : c.topic_partition = p
          · simp [offsets.window_mk_some, h1, h2, GoMap.get?_set, GoMap.get?, hp, foldCall]
          · simp [offsets.window_mk_some, h1, h2, GoMap.get?_set, GoMap.get?, hp]
        · simp [offsets.window_mk_some, h1, h2, GoMap.get?_set, GoMap.get?, ht]
      · simp [offsets.window_mk_some, h1, h2, GoMap.get?_set, hk]
    | some aux2 =>
      cases h3 : aux2.get? c.topic_partition with
      | none =>
        by_cases hk : H.concatKeys c.fsmId c.fsmAlias = key
        · subst hk
          by_cases ht : c.topic = topic
          · subst ht
            by_cases hp : c.topic_partition = p
            · subst hp
              simp [offsets.window_mk_some, h1, h2, h3, GoMap.get?_set, foldCall]
            · simp [offsets.window_mk_some, h1, h2, h3, GoMap.get?_set, hp]
          · simp [offsets.window_mk_some, h1, h2, h3, GoMap.get?_set, ht]
        · simp [offsets.window_mk_some, h1, h2, h3, GoMap.get?_set, hk]
      | some old =>
        by_cases hk : H.concatKeys c.fsmId c.fsmAlias = key
        · subst hk
          by_cases ht : c.topic = topic
          · subst ht
            by_cases hp : c.topic_partition = p
            · subst hp
              simp [offsets.window_mk_some, h1, h2, h3, GoMap.get?_set, foldCall]
            · simp [offsets.window_mk_some, h1, h2, h3, GoMap.get?_set, hp]
          · simp [offsets.window_mk_some, h1, h2, h3, GoMap.get?_set, ht]
        · simp [offsets.window_mk_some, h1, h2, h3, GoMap.get?_set, hk]

/-- A sequence of calls changes a summary by folding in, in call order, the
calls that address it. -/
theorem offsets.lookup_addAll (H : Helpers) (cs : List AddCall) (o : offsets)
    (key topic : String) (p : Int) :
    (o.addAll H cs).lookup key topic p =
      (cs.filter (AddCall.targets H key topic p)).foldl foldCall (o.lookup key topic p) := by
  induction cs generalizing o with
  | nil => rfl
  | cons c cs ih =>
    have hstep : offsets.addAll H o (c :: cs) = offsets.addAll H (o.addCall H c) cs := rfl
    rw [hstep, ih, offsets.lookup_addCall]
    by_cases h : c.targets H key topic p <;> simp [List.filter_cons, h]

theorem foldCall_foldl_some (ts : List AddCall) (x : offsetInfo)
    (hx : wrapInt64 x.count = x.count) :
    ts.foldl foldCall (some x) =
      some { startOffset := x.startOffset
             lastOffset := ((ts.getLast?).map AddCall.offset).getD x.lastOffset
             count := wrapInt64 (x.count + ts.length)
             updated := ((ts.getLast?).map AddCall.now).getD x.updated } := by
  induction ts generalizing x with
  | nil => simp [hx]
  | cons c cs ih =>
    have hidem : wrapInt64 (wrapInt64 (x.count + 1)) = wrapInt64 (x.count + 1) := by
      have := wrapInt64_wrapInt64_add (x.count + 1) 0
      simpa using this
    simp only [List.foldl_cons, foldCall]
    rw [ih _ hidem]
    simp only [List.getLast?_cons, List.length_cons, wrapInt64_wrapInt64_add]
    have harith : x.count + 1 + (cs.length : Int) = x.count + ((cs.length + 1 : Nat) : Int) := by
      push_cast
      omega
    rw [harith]
    cases cs.getLast? <;> simp

theorem foldCall_foldl_none (ts : List AddCall) :
    ts.foldl foldCall none = summaryOf ts := by
  cases ts with
  | nil => rfl
  | cons c cs =>
    simp only [List.foldl_cons, foldCall]
    rw [foldCall_foldl_some _ _ wrapInt64_one]
    simp only [summaryOf, List.head?_cons, List.getLast?_cons, List.length_cons]
    have harith : (1 : Int) + (cs.length : Int) = ((cs.length + 1 : Nat) : Int) := by
      push_cast
      omega
    rw [harith]
    cases cs.getLast? <;> simp

theorem summaryOf_count {ts : List AddCall} {oi : offsetInfo} (h : summaryOf ts = some oi) :
    oi.count = wrapInt64 ts.length := by
  cases ts with
  | nil => simp [summaryOf] at h
  | cons c cs =>
    simp only [summaryOf, List.head?_cons, List.getLast?_cons, Option.some.injEq] at h
    rw [← h]

/-- An `add` on a summary whose count is `2^63 - 1` wraps the count to
`-2^63`, as the `int64` addition of the source does. -/
theorem offsets.add_count_wraps :
    ((offsets.mk (some [("k", [("t", [(0, ⟨100, 100, 9223372036854775807, 1⟩)])])])).add
        ⟨fun _ _ => "k", fun k => ("", k), fun _ _ => ""⟩ "" "k" "t" 0 105 2).lookup "k" "t" 0 =
      some { startOffset := 100, lastOffset := 105, count := -9223372036854775808,
             updated := 2 } := by
  decide

/-- C1: after any sequence of `add` calls on the nil window, the window holds a
summary for a key, topic and partition iff some call addresses them; the summary
then has the offset of the first such call as `startOffset`, the offset of the
last such call (in call order) as `lastOffset` and, as `count`, the number of
such calls held in an `int64`, which is the number itself below `2^63` calls;
and a single call changes only the summary it addresses, to which it does what
`foldCall` says (`int64` increment of the count included). -/
theorem C1_add_summary (H : Helpers) (cs : List AddCall) (key topic : String) (p : Int) :
    (((offsets.addAll H ⟨none⟩ cs).lookup key topic p).isSome ↔
        ∃ c ∈ cs, c.targets H key topic p = true) ∧
    (offsets.addAll H ⟨none⟩ cs).lookup key topic p =
        summaryOf (cs.filter (AddCall.targets H key topic p)) ∧
    (∀ oi, (offsets.addAll H ⟨none⟩ cs).lookup key topic p = some oi →
      (cs.filter (AddCall.targets H key topic p)).head?.map AddCall.offset =
        some oi.startOffset ∧
      (cs.filter (AddCall.targets H key topic p)).getLast?.map AddCall.offset =
        some oi.lastOffset ∧
      oi.count = wrapInt64 (cs.filter (AddCall.targets H key topic p)).length ∧
      ((cs.filter (AddCall.targets H key topic p)).length < 2 ^ 63 →
        oi.count = (cs.filter (AddCall.targets H key topic p)).length)) ∧
    (∀ (o : offsets) (c : AddCall),
        (o.addCall H c).lookup key topic p =
          if c.targets H key topic p then foldCall (o.lookup key topic p) c
          else o.lookup key topic p) := by
  have hsum : (offsets.addAll H ⟨none⟩ cs).lookup key topic p =
      summaryOf (cs.filter (AddCall.targets H key topic p)) := by
    rw [offsets.lookup_addAll, ← foldCall_foldl_none]
    rfl
  refine ⟨?_, hsum, ?_, fun o c => offsets.lookup_addCall H o c key topic p⟩
  · rw [hsum]
    cases hts : cs.filter (AddCall.targets H key topic p) with
    | nil =>
      have hno : ∀ c ∈ cs, ¬ c.targets H key topic p = true := by
        simpa [List.filter_eq_nil_iff] using hts
      simp only [summaryOf, List.head?_nil, Option.isSome_none, Bool.false_eq_true, false_iff]
      rintro ⟨c, hc, ht⟩
      exact hno c hc ht
    | cons t ts =>
      have hmem : t ∈ cs.filter (AddCall.targets H key topic p) := by simp [hts]
      have hex : ∃ c ∈ cs, c.targets H key topic p = true :=
        ⟨t, (List.mem_filter.mp hmem).1, (List.mem_filter.mp hmem).2⟩
      simp only [summaryOf, List.head?_cons, List.getLast?_cons]
      simpa using hex
  · intro oi hoi
    rw [hsum] at hoi
    have hcount := summaryOf_count hoi
    refine ⟨?_, ?_, hcount, fun hlen => by rw [hcount, wrapInt64_natCast hlen]⟩
    · cases hts : cs.filter (AddCall.targets H key topic p) with
      | nil => simp [hts, summaryOf] at hoi
      | cons t ts =>
        rw [hts] at hoi
        simp only [summaryOf, List.head?_cons, List.getLast?_cons, Option.some.injEq] at hoi
        simp [← hoi]
    · cases hts : cs.filter (AddCall.targets H key topic p) with
      | nil => simp [hts, summaryOf] at hoi
      | cons t ts =>
        rw [hts] at hoi
        simp only [summaryOf, List.head?_cons, List.getLast?_cons, Option.some.injEq] at hoi
        simp [← hoi, List.getLast?_cons]

/-! ## offsets.flush -/

theorem visited_perm (ord : RangeOrder) (w : Window) : (visited ord w).Perm (entriesOf w) := by
  unfold visited entriesOf
  refine ((List.Perm.flatMap_left _ ?_).trans (List.Perm.flatMap_right _ (ord.isPerm w)))
  intro e _
  unfold keyEntries
  refine ((List.Perm.flatMap_left _ ?_).trans (List.Perm.flatMap_right _ (ord.isPerm e.2)))
  intro e2 _
  exact List.Perm.map _ (ord.isPerm e2.2)

/-- The state of the loops of `flush` after one entry. -/
theorem flushEntry_eq (H : Helpers) (key topic : String) (acc : List Value × List Value)
    (pe : Int × offsetInfo) :
    flushEntry H key topic acc pe =
      if Entry.pending H ⟨key, topic, pe.1, pe.2⟩ then
        (acc.1, acc.2 ++ Entry.pendingRow H ⟨key, topic, pe.1, pe.2⟩)
      else (acc.1 ++ Entry.resolvedRow H ⟨key, topic, pe.1, pe.2⟩, acc.2) := by
  by_cases h : (H.extractKeys key).1 = "" <;>
    simp [flushEntry, Entry.pending, Entry.pendingRow, Entry.resolvedRow, h]

theorem foldl_flushEntry (H : Helpers) (key topic : String) (l : List (Int × offsetInfo))
    (acc : List Value × List Value) :
    l.foldl (flushEntry H key topic) acc =
      (acc.1 ++ ((l.map fun pe => (⟨key, topic, pe.1, pe.2⟩ : Entry)).filter
          (Entry.resolved H)).flatMap (Entry.resolvedRow H),
       acc.2 ++ ((l.map fun pe => (⟨key, topic, pe.1, pe.2⟩ : Entry)).filter
          (Entry.pending H)).flatMap (Entry.pendingRow H)) := by
  induction l generalizing acc with
  | nil => simp
  | cons pe l ih =>
    rw [List.foldl_cons, ih, flushEntry_eq]
    by_cases h : Entry.pending H ⟨key, topic, pe.1, pe.2⟩ <;>
      simp [Entry.resolved, h, List.filter_cons, List.flatMap_cons]

theorem foldl_flushTopic (H : Helpers) (ord : RangeOrder) (key : String)
    (l : List (String × GoMap Int offsetInfo)) (acc : List Value × List Value) :
    l.foldl (flushTopic H ord key) acc =
      (acc.1 ++ ((l.flatMap fun e2 => (ord.perm e2.2).map fun pe =>
          (⟨key, e2.1, pe.1, pe.2⟩ : Entry)).filter
          (Entry.resolved H)).flatMap (Entry.resolvedRow H),
       acc.2 ++ ((l.flatMap fun e2 => (ord.perm e2.2).map fun pe =>
          (⟨key, e2.1, pe.1, pe.2⟩ : Entry)).filter
          (Entry.pending H)).flatMap (Entry.pendingRow H)) := by
  induction l generalizing acc with
  | nil => simp
  | cons e2 l ih =>
    rw [List.foldl_cons, ih, flushTopic, foldl_flushEntry]
    simp [List.flatMap_cons, List.filter_append, List.flatMap_append, List.append_assoc]

theorem foldl_flushKey (H : Helpers) (ord : RangeOrder) (l : Window)
    (acc : List Value × List Value) :
    l.foldl (flushKey H ord) acc =
      (acc.1 ++ ((l.flatMap fun e => (ord.perm e.2).flatMap fun e2 =>
          (ord.perm e2.2).map fun pe => (⟨e.1, e2.1, pe.1, pe.2⟩ : Entry)).filter
          (Entry.resolved H)).flatMap (Entry.resolvedRow H),
       acc.2 ++ ((l.flatMap fun e => (ord.perm e.2).flatMap fun e2 =>
          (ord.perm e2.2).map fun pe => (⟨e.1, e2.1, pe.1, pe.2⟩ : Entry)).filter
          (Entry.pending H)).flatMap (Entry.pendingRow H)) := by
  induction l generalizing acc with
  | nil => simp
  | cons e l ih =>
    rw [List.foldl_cons, ih, flushKey, foldl_flushTopic]
    simp [List.flatMap_cons, List.filter_append, List.flatMap_append, List.append_assoc]

theorem length_flatMap_pendingRow (H : Helpers) (es : List Entry) :
    (es.flatMap (Entry.pendingRow H)).length = 7 * es.length := by
  induction es with
  | nil => rfl
  | cons e es ih =>
    simp only [List.flatMap_cons, List.length_append, ih, List.length_cons]
    simp [Entry.pendingRow, rowValues]
    omega

theorem length_flatMap_resolvedRow (H : Helpers) (es : List Entry) :
    (es.flatMap (Entry.resolvedRow H)).length = 7 * es.length := by
  induction es with
  | nil => rfl
  | cons e es ih =>
    simp only [List.flatMap_cons, List.length_append, ih, List.length_cons]
    simp [Entry.resolvedRow, rowValues]
    omega

/-- The queries `flush` returns are the batches of the entries it visits. -/
theorem offsets.flush_queries (H : Helpers) (ord : RangeOrder) (o : offsets) :
    (o.flush H ord).2 = batchesOf H (visited ord o.window) := by
  unfold offsets.flush
  by_cases h0 : o.window.length = 0
  · have hw : o.window = [] := List.length_eq_zero.mp h0
    have hv : visited ord o.window = [] := by
      have := (visited_perm ord o.window)
      rw [hw] at this ⊢
      simpa [entriesOf] using this
    simp [h0, hv, batchesOf]
  · simp only [h0, if_false, foldl_flushKey, List.nil_append]
    change _ = batchesOf H ((ord.perm o.window).flatMap _)
    simp only [batchesOf, pendingBatch, resolvedBatch, tmpOffsetSql, offsetSql,
      length_flatMap_pendingRow, length_flatMap_resolvedRow]
    have hdiv : ∀ n : Nat, 7 * n / 7 = n := fun n => by omega
    have hpos : ∀ l : List Entry, (7 * l.length > 0) ↔ ¬ l = [] := by
      intro l
      cases l <;> simp
    simp only [hdiv, hpos]
    split_ifs <;> simp

theorem append_ne_of_head_ne (a b x y : String) (hlen : a.length = b.length)
    (hne : a ≠ b) : a ++ x ≠ b ++ y := by
  intro h
  have hd : a.data ++ x.data = b.data ++ y.data := by
    have := congrArg String.data h
    simpa [String.data_append] using this
  have hab : a.data = b.data := (List.append_inj hd hlen).1
  exact hne (String.ext hab)

/-- The two statements `flush` builds differ, whatever `buildInsertTuples`
returns. -/
theorem tmpOffsetSql_ne_offsetSql (H : Helpers) (n m : Nat) :
    tmpOffsetSql H n ≠ offsetSql H m := by
  have h1 : tmpOffsetSql H n = "INSERT INTO bookie.t" ++
      ("mpOffset(fsmAlias, topic, topic_partition, startOffset, lastOffset, count, updated) VALUES " ++
        H.buildInsertTuples 7 n ++
        " ON DUPLICATE KEY UPDATE lastOffset = VALUES(lastOffset), count = count + VALUES(count), updated = UTC_TIMESTAMP") := by
    unfold tmpOffsetSql
    simp only [← String.append_assoc]
    rfl
  have h2 : offsetSql H m = "INSERT INTO bookie.o" ++
      ("ffset(fsmID, topic, topic_partition, startOffset, lastOffset, count, updated) VALUES " ++
        H.buildInsertTuples 7 m ++
        " ON DUPLICATE KEY UPDATE lastOffset = VALUES(lastOffset), count = count + VALUES(count), updated = UTC_TIMESTAMP") := by
    unfold offsetSql
    simp only [← String.append_assoc]
    rfl
  rw [h1, h2]
  exact append_ne_of_head_ne _ _ _ _ (by decide) (by decide)

theorem pendingBatch_isPending (H : Helpers) (es : List Entry) :
    (pendingBatch H es).isPending H := ⟨es.length, rfl⟩

theorem resolvedBatch_isResolved (H : Helpers) (es : List Entry) :
    (resolvedBatch H es).isResolved H := ⟨es.length, rfl⟩

theorem pendingBatch_not_isResolved (H : Helpers) (es : List Entry) :
    ¬ (pendingBatch H es).isResolved H := by
  rintro ⟨n, hn⟩
  exact tmpOffsetSql_ne_offsetSql H _ _ hn

theorem resolvedBatch_not_isPending (H : Helpers) (es : List Entry) :
    ¬ (resolvedBatch H es).isPending H := by
  rintro ⟨n, hn⟩
  exact tmpOffsetSql_ne_offsetSql H _ _ hn.symm

theorem pendingBatch_values_ne_nil (H : Helpers) {es : List Entry} (h : es ≠ []) :
    (pendingBatch H es).values ≠ [] := by
  intro hv
  have := congrArg List.length hv
  simp only [pendingBatch, length_flatMap_pendingRow, List.length_nil] at this
  cases es with
  | nil => exact h rfl
  | cons e es => simp at this

theorem resolvedBatch_values_ne_nil (H : Helpers) {es : List Entry} (h : es ≠ []) :
    (resolvedBatch H es).values ≠ [] := by
  intro hv
  have := congrArg List.length hv
  simp only [resolvedBatch, length_flatMap_resolvedRow, List.length_nil] at this
  cases es with
  | nil => exact h rfl
  | cons e es => simp at this

theorem filter_pending_add_filter_resolved (H : Helpers) (es : List Entry) :
    (es.filter (Entry.pending H)).length + (es.filter (Entry.resolved H)).length =
      es.length := by
  induction es with
  | nil => rfl
  | cons e es ih =>
    by_cases h : e.pending H <;> simp [List.filter_cons, Entry.resolved, h] <;>
      simp [Entry.resolved] at ih <;> omega

/-- C2: `flush` visits every entry of the window exactly once; the returned
queries are the batch for `bookie.tmpOffset`, holding the row
`(fsmAlias, topic, partition, startOffset, lastOffset, count, updated)` of
every visited entry whose extracted `fsmId` is empty, and the batch for
`bookie.offset`, holding the row `(fsmId, topic, partition, ...)` of every
other visited entry, each present only when it has a row; each value list has
7 values per row, the number of rows is the one passed to `buildInsertTuples`,
and the rows of both batches together are as many as the entries of the
window. -/
theorem C2_flush_rows (H : Helpers) (ord : RangeOrder) (o : offsets) :
    (visited ord o.window).Perm (entriesOf o.window) ∧
    (o.flush H ord).2 =
      (if (visited ord o.window).filter (fun e => decide ((H.extractKeys e.key).1 = "")) = []
        then []
        else [{
          sql := "INSERT INTO bookie.tmpOffset(fsmAlias, topic, topic_partition, startOffset, lastOffset, count, updated) VALUES " ++
            H.buildInsertTuples 7
              ((visited ord o.window).filter
                (fun e => decide ((H.extractKeys e.key).1 = ""))).length ++
            " ON DUPLICATE KEY UPDATE lastOffset = VALUES(lastOffset), count = count + VALUES(count), updated = UTC_TIMESTAMP"
          values :=
            ((visited ord o.window).filter
              (fun e => decide ((H.extractKeys e.key).1 = ""))).flatMap fun e =>
                [Value.str (H.extractKeys e.key).2, Value.str e.topic,
                 Value.int32 e.topic_partition, Value.int64 e.info.startOffset,
                 Value.int64 e.info.lastOffset, Value.int64 e.info.count,
                 Value.time e.info.updated] }]) ++
      (if (visited ord o.window).filter (fun e => !decide ((H.extractKeys e.key).1 = "")) = []
        then []
        else [{
          sql := "INSERT INTO bookie.offset(fsmID, topic, topic_partition, startOffset, lastOffset, count, updated) VALUES " ++
            H.buildInsertTuples 7
              ((visited ord o.window).filter
                (fun e => !decide ((H.extractKeys e.key).1 = ""))).length ++
            " ON DUPLICATE KEY UPDATE lastOffset = VALUES(lastOffset), count = count + VALUES(count), updated = UTC_TIMESTAMP"
          values :=
            ((visited ord o.window).filter
              (fun e => !decide ((H.extractKeys e.key).1 = ""))).flatMap fun e =>
                [Value.str (H.extractKeys e.key).1, Value.str e.topic,
                 Value.int32 e.topic_partition, Value.int64 e.info.startOffset,
                 Value.int64 e.info.lastOffset, Value.int64 e.info.count,
                 Value.time e.info.updated] }]) ∧
    (∀ q ∈ (o.flush H ord).2,
      q.values.length = 7 * (q.values.length / 7) ∧
      (q.sql = "INSERT INTO bookie.tmpOffset(fsmAlias, topic, topic_partition, startOffset, lastOffset, count, updated) VALUES " ++
          H.buildInsertTuples 7 (q.values.length / 7) ++
          " ON DUPLICATE KEY UPDATE lastOffset = VALUES(lastOffset), count = count + VALUES(count), updated = UTC_TIMESTAMP" ∨
       q.sql = "INSERT INTO bookie.offset(fsmID, topic, topic_partition, startOffset, lastOffset, count, updated) VALUES " ++
          H.buildInsertTuples 7 (q.values.length / 7) ++
          " ON DUPLICATE KEY UPDATE lastOffset = VALUES(lastOffset), count = count + VALUES(count), updated = UTC_TIMESTAMP")) ∧
    (((o.flush H ord).2.map fun q => q.values.length / 7).sum = (entriesOf o.window).length) := by
  have hdiv : ∀ n : Nat, 7 * n / 7 = n := fun n => by omega
  have h1 := length_flatMap_pendingRow H ((visited ord o.window).filter (Entry.pending H))
  have h2 := length_flatMap_resolvedRow H ((visited ord o.window).filter (Entry.resolved H))
  have hq := offsets.flush_queries H ord o
  refine ⟨visited_perm ord o.window, hq, ?_, ?_⟩
  · intro q hmem
    rw [hq] at hmem
    unfold batchesOf at hmem
    rcases List.mem_append.mp hmem with h | h
    · split_ifs at h with hp
      · simp at h
      · rw [List.mem_singleton.mp h]
        simp only [pendingBatch, h1, hdiv, tmpOffsetSql, true_and]
        exact Or.inl trivial
    · split_ifs at h with hr
      · simp at h
      · rw [List.mem_singleton.mp h]
        simp only [resolvedBatch, h2, hdiv, offsetSql, true_and]
        exact Or.inr trivial
  · rw [hq, ← (visited_perm ord o.window).length_eq,
      ← filter_pending_add_filter_resolved H (visited ord o.window)]
    unfold batchesOf
    split_ifs with hp hr hr <;>
      simp only [hp, hr, pendingBatch, resolvedBatch, h1, h2, hdiv, List.map_nil, List.map_cons,
        List.nil_append, List.append_nil, List.singleton_append, List.sum_cons, List.sum_nil,
        List.length_nil, Nat.add_zero, Nat.zero_add]

/-- C3: the queries returned by `flush` hold a pending batch iff some entry of
the window has an empty extracted `fsmId`, and a resolved batch iff some entry
has a non-empty one; no returned query has an empty value list; a window whose
entries are all pending yields exactly the pending batch, a window whose
entries are all resolved yields exactly the resolved batch, and a window
without entries yields no query. -/
theorem C3_flush_batches (H : Helpers) (ord : RangeOrder) (o : offsets) :
    ((∃ q ∈ (o.flush H ord).2, q.isPending H) ↔
        ∃ e ∈ entriesOf o.window, e.pending H = true) ∧
    ((∃ q ∈ (o.flush H ord).2, q.isResolved H) ↔
        ∃ e ∈ entriesOf o.window, e.resolved H = true) ∧
    (∀ q ∈ (o.flush H ord).2, q.values ≠ []) ∧
    (entriesOf o.window ≠ [] → (∀ e ∈ entriesOf o.window, e.pending H = true) →
        ∃ q, (o.flush H ord).2 = [q] ∧ q.isPending H ∧ ¬ q.isResolved H) ∧
    (entriesOf o.window ≠ [] → (∀ e ∈ entriesOf o.window, e.resolved H = true) →
        ∃ q, (o.flush H ord).2 = [q] ∧ q.isResolved H ∧ ¬ q.isPending H) ∧
    (entriesOf o.window = [] → (o.flush H ord).2 = []) := by
  have hperm := visited_perm ord o.window
  have hmem : ∀ e, e ∈ entriesOf o.window ↔ e ∈ visited ord o.window :=
    fun e => (hperm.mem_iff).symm
  have hP : (visited ord o.window).filter (Entry.pending H) = [] ↔
      ¬ ∃ e ∈ entriesOf o.window, e.pending H = true := by
    simp [List.filter_eq_nil_iff, hmem]
  have hR : (visited ord o.window).filter (Entry.resolved H) = [] ↔
      ¬ ∃ e ∈ entriesOf o.window, e.resolved H = true := by
    simp [List.filter_eq_nil_iff, hmem]
  rw [offsets.flush_queries]
  unfold batchesOf
  refine ⟨?_, ?_, ?_, ?_, ?_, ?_⟩
  · by_cases hp : (visited ord o.window).filter (Entry.pending H) = [] <;>
    by_cases hr : (visited ord o.window).filter (Entry.resolved H) = []
    · simp [hp, hr, hP.mp hp]
    · simpa [hp, hr, hP.mp hp] using resolvedBatch_not_isPending H _
    · have := not_not.mp (mt hP.mpr hp)
      simpa [hp, hr, this] using pendingBatch_isPending H _
    · have := not_not.mp (mt hP.mpr hp)
      simpa [hp, hr, this] using Or.inl (pendingBatch_isPending H _)
  · by_cases hp : (visited ord o.window).filter (Entry.pending H) = [] <;>
    by_cases hr : (visited ord o.window).filter (Entry.resolved H) = []
    · simp [hp, hr, hR.mp hr]
    · have := not_not.mp (mt hR.mpr hr)
      simpa [hp, hr, this] using resolvedBatch_isResolved H _
    · simpa [hp, hr, hR.mp hr] using pendingBatch_not_isResolved H _
    · have := not_not.mp (mt hR.mpr hr)
      simpa [hp, hr, this] using Or.inr (resolvedBatch_isResolved H _)
  · intro q hq
    rcases List.mem_append.mp hq with h | h
    · split_ifs at h with hp
      · simp at h
      · rw [List.mem_singleton.mp h]
        exact pendingBatch_values_ne_nil H hp
    · split_ifs at h with hr
      · simp at h
      · rw [List.mem_singleton.mp h]
        exact resolvedBatch_values_ne_nil H hr
  · intro hne hall
    obtain ⟨e, he⟩ := List.exists_mem_of_ne_nil _ hne
    have hp : ¬ (visited ord o.window).filter (Entry.pending H) = [] :=
      fun h => hP.mp h ⟨e, he, hall e he⟩
    have hr : (visited ord o.window).filter (Entry.resolved H) = [] := by
      rw [hR]
      rintro ⟨e', he', hres⟩
      simp [Entry.resolved, hall e' he'] at hres
    exact ⟨pendingBatch H ((visited ord o.window).filter (Entry.pending H)), by simp [hp, hr],
      pendingBatch_isPending H _, pendingBatch_not_isResolved H _⟩
  · intro hne hall
    obtain ⟨e, he⟩ := List.exists_mem_of_ne_nil _ hne
    have hr : ¬ (visited ord o.window).filter (Entry.resolved H) = [] :=
      fun h => hR.mp h ⟨e, he, hall e he⟩
    have hp : (visited ord o.window).filter (Entry.pending H) = [] := by
      rw [hP]
      rintro ⟨e', he', hpen⟩
      have := hall e' he'
      simp [Entry.resolved, hpen] at this
    exact ⟨resolvedBatch H ((visited ord o.window).filter (Entry.resolved H)), by simp [hp, hr],
      resolvedBatch_isResolved H _, resolvedBatch_not_isPending H _⟩
  · intro hnil
    have hv : visited ord o.window = [] := by
      have := hperm
      rw [hnil] at this
      simpa using this
    simp [hv]

/-! ## offsets.add followed by offsets.flush -/

theorem perm_pair_cases {α : Type} {l : List α} {a b : α} (h : l.Perm [a, b]) :
    l = [a, b] ∨ l = [b, a] := by
  have hlen : l.length = 2 := h.length_eq
  match l, hlen with
  | [x, y], _ =>
    have hx : x ∈ [a, b] := h.subset (by simp)
    simp only [List.mem_cons, List.mem_singleton, List.not_mem_nil, or_false] at hx
    rcases hx with rfl | rfl
    · left
      have := (List.perm_cons x).mp h
      rw [this.eq_singleton]
    · right
      have h' : [x, y].Perm [x, a] := h.trans (List.Perm.swap x a [])
      have := (List.perm_cons x).mp h'
      rw [this.eq_singleton]

theorem visited_single (ord : RangeOrder) (key topic : String) (p : Int) (oi : offsetInfo) :
    visited ord [(key, [(topic, [(p, oi)])])] = [⟨key, topic, p, oi⟩] := by
  unfold visited
  rw [(ord.isPerm [(key, [(topic, [(p, oi)])])]).eq_singleton]
  simp only [List.flatMap_cons, List.flatMap_nil, List.append_nil]
  rw [(ord.isPerm [(topic, [(p, oi)])]).eq_singleton]
  simp only [List.flatMap_cons, List.flatMap_nil, List.append_nil]
  rw [(ord.isPerm [(p, oi)]).eq_singleton]
  rfl

/-- Calls that all address the only summary of a window fold into it. -/
theorem offsets.addAll_single (H : Helpers) (key topic : String) (p : Int)
    (cs : List AddCall) (x : offsetInfo) (hx : wrapInt64 x.count = x.count)
    (hcs : ∀ c ∈ cs, H.concatKeys c.fsmId c.fsmAlias = key ∧ c.topic = topic ∧
      c.topic_partition = p) :
    offsets.addAll H ⟨some [(key, [(topic, [(p, x)])])]⟩ cs =
      ⟨some [(key, [(topic, [(p,
        { startOffset := x.startOffset
          lastOffset := ((cs.getLast?).map AddCall.offset).getD x.lastOffset
          count := wrapInt64 (x.count + cs.length)
          updated := ((cs.getLast?).map AddCall.now).getD x.updated })])])]⟩ := by
  induction cs generalizing x with
  | nil => simp [offsets.addAll, hx]
  | cons c cs ih =>
    obtain ⟨hk, ht, hp⟩ := hcs c (by simp)
    have hstep : offsets.addCall H ⟨some [(key, [(topic, [(p, x)])])]⟩ c =
        ⟨some [(key, [(topic, [(p,
          { startOffset := x.startOffset, lastOffset := c.offset,
            count := wrapInt64 (x.count + 1), updated := c.now })])])]⟩ := by
      simp [offsets.addCall, offsets.add, GoMap.get?, GoMap.set, hk, ht, hp]
    have hfold : offsets.addAll H ⟨some [(key, [(topic, [(p, x)])])]⟩ (c :: cs) =
        offsets.addAll H (offsets.addCall H ⟨some [(key, [(topic, [(p, x)])])]⟩ c) cs := rfl
    have hidem : wrapInt64 (wrapInt64 (x.count + 1)) = wrapInt64 (x.count + 1) := by
      have := wrapInt64_wrapInt64_add (x.count + 1) 0
      simpa using this
    rw [hfold, hstep, ih _ hidem (fun d hd => hcs d (by simp [hd]))]
    simp only [List.getLast?_cons, List.length_cons, wrapInt64_wrapInt64_add]
    have harith : x.count + 1 + (cs.length : Int) = x.count + ((cs.length + 1 : Nat) : Int) := by
      push_cast
      omega
    rw [harith]
    cases cs.getLast? <;> simp

/-- The first call on the nil window creates the window with one summary. -/
theorem offsets.addCall_nil (H : Helpers) (c : AddCall) :
    offsets.addCall H ⟨none⟩ c =
      ⟨some [(H.concatKeys c.fsmId c.fsmAlias, [(c.topic, [(c.topic_partition,
        { startOffset := c.offset, lastOffset := c.offset, count := 1,
          updated := c.now })])])]⟩ := by
  simp [offsets.addCall, offsets.add, GoMap.get?, GoMap.set]

/-- C4: after a non-empty sequence of `add` calls on the nil window that all
pass an empty resolved ID and the same alias, topic and partition, and with
`extractKeys(concatKeys("", alias)) = ("", alias)`, `flush` returns exactly one
query, the pending batch with one row: alias, topic, partition, the offset of
the first call, the offset of the last call, the number of calls and the time
of the last call.  The number of calls is held in an `int64`: it is the number
itself for fewer than `2^63` calls. -/
theorem C4_adds_then_flush (H : Helpers) (ord : RangeOrder) (fsmAlias topic : String) (p : Int)
    (cs : List AddCall) (hne : cs ≠ [])
    (hcs : ∀ c ∈ cs, c.fsmId = "" ∧ c.fsmAlias = fsmAlias ∧ c.topic = topic ∧
      c.topic_partition = p)
    (hkeys : H.extractKeys (H.concatKeys "" fsmAlias) = ("", fsmAlias)) :
    ∃ first last, cs.head? = some first ∧ cs.getLast? = some last ∧
      ((offsets.addAll H ⟨none⟩ cs).flush H ord).2 =
        [{ sql := tmpOffsetSql H 1
           values := [Value.str fsmAlias, Value.str topic, Value.int32 p,
             Value.int64 first.offset, Value.int64 last.offset,
             Value.int64 (wrapInt64 cs.length), Value.time last.now] }] ∧
      (cs.length < 2 ^ 63 →
        ((offsets.addAll H ⟨none⟩ cs).flush H ord).2 =
          [{ sql := tmpOffsetSql H 1
             values := [Value.str fsmAlias, Value.str topic, Value.int32 p,
               Value.int64 first.offset, Value.int64 last.offset,
               Value.int64 cs.length, Value.time last.now] }]) := by
  have hmain : ∃ first last, cs.head? = some first ∧ cs.getLast? = some last ∧
      ((offsets.addAll H ⟨none⟩ cs).flush H ord).2 =
        [{ sql := tmpOffsetSql H 1
           values := [Value.str fsmAlias, Value.str topic, Value.int32 p,
             Value.int64 first.offset, Value.int64 last.offset,
             Value.int64 (wrapInt64 cs.length), Value.time last.now] }] := by
    cases cs with
    | nil => exact absurd rfl hne
    | cons c cs =>
      obtain ⟨hid, hal, ht, hp⟩ := hcs c (by simp)
      have htail : ∀ d ∈ cs, H.concatKeys d.fsmId d.fsmAlias = H.concatKeys "" fsmAlias ∧
          d.topic = topic ∧ d.topic_partition = p := by
        intro d hd
        obtain ⟨h1, h2, h3, h4⟩ := hcs d (by simp [hd])
        exact ⟨by rw [h1, h2], h3, h4⟩
      have hfold : offsets.addAll H ⟨none⟩ (c :: cs) =
          offsets.addAll H (offsets.addCall H ⟨none⟩ c) cs := rfl
      have harith : (1 : Int) + (cs.length : Int) = ((cs.length + 1 : Nat) : Int) := by
        push_cast
        omega
      refine ⟨c, cs.getLast?.getD c, rfl, List.getLast?_cons, ?_⟩
      rw [hfold, offsets.addCall_nil, hid, hal, ht, hp,
        offsets.addAll_single H _ _ _ cs _ wrapInt64_one htail, offsets.flush_queries,
        offsets.window_mk_some, visited_single]
      have hpend : ∀ oi : offsetInfo,
          Entry.pending H ⟨H.concatKeys "" fsmAlias, topic, p, oi⟩ = true := by
        intro oi
        simp [Entry.pending, hkeys]
      rw [harith]
      simp only [batchesOf, List.filter_cons, Entry.resolved, hpend, Bool.not_true, if_true,
        List.filter_nil, pendingBatch, List.length_cons, List.length_nil, List.flatMap_cons,
        List.flatMap_nil, Entry.pendingRow, rowValues, hkeys]
      cases cs.getLast? <;> simp
  obtain ⟨first, last, h1, h2, h3⟩ := hmain
  refine ⟨first, last, h1, h2, h3, ?_⟩
  intro hlen
  rw [h3, wrapInt64_natCast hlen]

/-- C4 at the input of the specification: `add("", "alias1", "t1", 0, 100)`,
`add("", "alias1", "t1", 0, 105)`, then `flush` give the single pending row
`(alias1, t1, 0, 100, 105, 2)`. -/
theorem C4_adds_then_flush_witness :
    ((offsets.addAll Helpers.sample ⟨none⟩
        [⟨"", "alias1", "t1", 0, 100, 7⟩, ⟨"", "alias1", "t1", 0, 105, 9⟩]).flush
        Helpers.sample RangeOrder.backwards).2 =
      [{ sql := tmpOffsetSql Helpers.sample 1
         values := [Value.str "alias1", Value.str "t1", Value.int32 0,
           Value.int64 100, Value.int64 105, Value.int64 2, Value.time 9] }] := by
  obtain ⟨first, last, h1, h2, _, h4⟩ :=
    C4_adds_then_flush Helpers.sample RangeOrder.backwards "alias1" "t1" 0
      [⟨"", "alias1", "t1", 0, 100, 7⟩, ⟨"", "alias1", "t1", 0, 105, 9⟩]
      (by decide) (by decide) (by decide)
  have hf : first = ⟨"", "alias1", "t1", 0, 100, 7⟩ := by
    simpa using h1.symm
  have hl : last = ⟨"", "alias1", "t1", 0, 105, 9⟩ := by
    simpa using h2.symm
  have := h4 (by norm_num)
  rw [hf, hl] at this
  simpa using this

/-- C10: two `add` calls on the nil window with the same non-empty resolved ID,
topic and partition but different aliases, `extractKeys` inverting
`concatKeys` on both pairs, leave two summaries, each with count 1 and its own
offsets; `flush` then returns one query, the resolved batch, with two rows that
carry the same `(fsmId, topic, partition)`, in either order. -/
theorem C10_pair_is_grouping_key (H : Helpers) (ord : RangeOrder)
    (fsmId a1 a2 topic : String) (p off1 off2 : Int) (now1 now2 : Time)
    (hid : fsmId ≠ "") (ha : a1 ≠ a2)
    (hex1 : H.extractKeys (H.concatKeys fsmId a1) = (fsmId, a1))
    (hex2 : H.extractKeys (H.concatKeys fsmId a2) = (fsmId, a2)) :
    (((offsets.mk none).add H fsmId a1 topic p off1 now1).add H fsmId a2 topic p off2
        now2).lookup (H.concatKeys fsmId a1) topic p =
      some { startOffset := off1, lastOffset := off1, count := 1, updated := now1 } ∧
    (((offsets.mk none).add H fsmId a1 topic p off1 now1).add H fsmId a2 topic p off2
        now2).lookup (H.concatKeys fsmId a2) topic p =
      some { startOffset := off2, lastOffset := off2, count := 1, updated := now2 } ∧
    (entriesOf (((offsets.mk none).add H fsmId a1 topic p off1 now1).add H fsmId a2 topic p
        off2 now2).window).length = 2 ∧
    (((((offsets.mk none).add H fsmId a1 topic p off1 now1).add H fsmId a2 topic p off2
        now2).flush H ord).2 =
        [{ sql := offsetSql H 2
           values :=
            [Value.str fsmId, Value.str topic, Value.int32 p, Value.int64 off1,
              Value.int64 off1, Value.int64 1, Value.time now1,
             Value.str fsmId, Value.str topic, Value.int32 p, Value.int64 off2,
              Value.int64 off2, Value.int64 1, Value.time now2] }] ∨
     ((((offsets.mk none).add H fsmId a1 topic p off1 now1).add H fsmId a2 topic p off2
        now2).flush H ord).2 =
        [{ sql := offsetSql H 2
           values :=
            [Value.str fsmId, Value.str topic, Value.int32 p, Value.int64 off2,
              Value.int64 off2, Value.int64 1, Value.time now2,
             Value.str fsmId, Value.str topic, Value.int32 p, Value.int64 off1,
              Value.int64 off1, Value.int64 1, Value.time now1] }]) := by
  have hk : H.concatKeys fsmId a1 ≠ H.concatKeys fsmId a2 := by
    intro h
    rw [h, hex2] at hex1
    exact ha (Prod.mk.inj hex1).2.symm
  have hw : ((offsets.mk none).add H fsmId a1 topic p off1 now1).add H fsmId a2 topic p off2
      now2 = ⟨some [(H.concatKeys fsmId a1, [(topic, [(p, ⟨off1, off1, 1, now1⟩)])]),
        (H.concatKeys fsmId a2, [(topic, [(p, ⟨off2, off2, 1, now2⟩)])])]⟩ := by
    simp [offsets.add, GoMap.get?, GoMap.set, hk]
  have hr1 : Entry.resolved H ⟨H.concatKeys fsmId a1, topic, p, ⟨off1, off1, 1, now1⟩⟩ = true := by
    simp [Entry.resolved, Entry.pending, hex1, hid]
  have hr2 : Entry.resolved H ⟨H.concatKeys fsmId a2, topic, p, ⟨off2, off2, 1, now2⟩⟩ = true := by
    simp [Entry.resolved, Entry.pending, hex2, hid]
  have hp1 : Entry.pending H ⟨H.concatKeys fsmId a1, topic, p, ⟨off1, off1, 1, now1⟩⟩ = false := by
    simp [Entry.pending, hex1, hid]
  have hp2 : Entry.pending H ⟨H.concatKeys fsmId a2, topic, p, ⟨off2, off2, 1, now2⟩⟩ = false := by
    simp [Entry.pending, hex2, hid]
  have hin : ∀ (k t : String) (q : Int) (oi : offsetInfo),
      ((ord.perm [(t, [(q, oi)])]).flatMap fun e2 =>
        (ord.perm e2.2).map fun pe => (⟨k, e2.1, pe.1, pe.2⟩ : Entry)) = [⟨k, t, q, oi⟩] := by
    intro k t q oi
    rw [(ord.isPerm [(t, [(q, oi)])]).eq_singleton]
    simp only [List.flatMap_cons, List.flatMap_nil, List.append_nil]
    rw [(ord.isPerm [(q, oi)]).eq_singleton]
    rfl
  rw [hw]
  refine ⟨?_, ?_, ?_, ?_⟩
  · simp [offsets.lookup, offsets.window_mk_some, GoMap.get?]
  · simp [offsets.lookup, offsets.window_mk_some, GoMap.get?, hk]
  · simp [offsets.window_mk_some, entriesOf, keyEntries, topicEntries]
  · rw [offsets.flush_queries, offsets.window_mk_some]
    unfold visited
    rcases perm_pair_cases (ord.isPerm
      [(H.concatKeys fsmId a1, [(topic, [(p, (⟨off1, off1, 1, now1⟩ : offsetInfo))])]),
       (H.concatKeys fsmId a2, [(topic, [(p, (⟨off2, off2, 1, now2⟩ : offsetInfo))])])])
      with h | h
    · left
      rw [h]
      simp only [List.flatMap_cons, List.flatMap_nil, List.append_nil, hin]
      simp [batchesOf, List.filter_cons, hr1, hr2, hp1, hp2, resolvedBatch, Entry.resolvedRow,
        rowValues, hex1, hex2]
    · right
      rw [h]
      simp only [List.flatMap_cons, List.flatMap_nil, List.append_nil, hin]
      simp [batchesOf, List.filter_cons, hr1, hr2, hp1, hp2, resolvedBatch, Entry.resolvedRow,
        rowValues, hex1, hex2]

/-- C10 at a concrete input: resolved ID `fsm1` with the aliases `a` and `b`. -/
theorem C10_pair_is_grouping_key_witness :
    (((offsets.mk none).add Helpers.sample "fsm1" "a" "t1" 0 100 7).add Helpers.sample
        "fsm1" "b" "t1" 0 105 9).lookup (Helpers.sample.concatKeys "fsm1" "a") "t1" 0 =
      some { startOffset := 100, lastOffset := 100, count := 1, updated := 7 } ∧
    (((offsets.mk none).add Helpers.sample "fsm1" "a" "t1" 0 100 7).add Helpers.sample
        "fsm1" "b" "t1" 0 105 9).lookup (Helpers.sample.concatKeys "fsm1" "b") "t1" 0 =
      some { startOffset := 105, lastOffset := 105, count := 1, updated := 9 } ∧
    (entriesOf (((offsets.mk none).add Helpers.sample "fsm1" "a" "t1" 0 100 7).add
        Helpers.sample "fsm1" "b" "t1" 0 105 9).window).length = 2 ∧
    (((((offsets.mk none).add Helpers.sample "fsm1" "a" "t1" 0 100 7).add Helpers.sample
        "fsm1" "b" "t1" 0 105 9).flush Helpers.sample RangeOrder.stored).2 =
        [{ sql := offsetSql Helpers.sample 2
           values :=
            [Value.str "fsm1", Value.str "t1", Value.int32 0, Value.int64 100,
              Value.int64 100, Value.int64 1, Value.time 7,
             Value.str "fsm1", Value.str "t1", Value.int32 0, Value.int64 105,
              Value.int64 105, Value.int64 1, Value.time 9] }] ∨
     ((((offsets.mk none).add Helpers.sample "fsm1" "a" "t1" 0 100 7).add Helpers.sample
        "fsm1" "b" "t1" 0 105 9).flush Helpers.sample RangeOrder.stored).2 =
        [{ sql := offsetSql Helpers.sample 2
           values :=
            [Value.str "fsm1", Value.str "t1", Value.int32 0, Value.int64 105,
              Value.int64 105, Value.int64 1, Value.time 9,
             Value.str "fsm1", Value.str "t1", Value.int32 0, Value.int64 100,
              Value.int64 100, Value.int64 1, Value.time 7] }]) :=
  C10_pair_is_grouping_key Helpers.sample RangeOrder.stored "fsm1" "a" "b" "t1" 0 100 105 7 9
    (by decide) (by decide) (by decide) (by decide)

/-! ## The drain boundary -/

theorem offsets.flush_window (H : Helpers) (ord : RangeOrder) (w : offsets) :
    (w.flush H ord).1.window = [] := by
  unfold offsets.flush
  by_cases h0 : w.window.length = 0
  · simpa [h0] using List.length_eq_zero.mp h0
  · have h0' : ¬ (w.o.getD [] = []) := fun h => h0 (by simp [offsets.window, h])
    simp [h0', offsets.window]

/-- A call of `add` reads the window only through its bindings: the nil map and
the empty map behave alike. -/
theorem offsets.addCall_congr (H : Helpers) {o1 o2 : offsets} (h : o1.window = o2.window)
    (c : AddCall) : o1.addCall H c = o2.addCall H c := by
  have key : ∀ o : offsets, o.addCall H c = (offsets.mk (some o.window)).addCall H c := by
    intro o
    obtain ⟨ow⟩ := o
    cases ow <;> rfl
  rw [key o1, key o2, h]

theorem offsets.addAll_window_congr (H : Helpers) {o1 o2 : offsets}
    (h : o1.window = o2.window) (cs : List AddCall) :
    (o1.addAll H cs).window = (o2.addAll H cs).window := by
  cases cs with
  | nil => exact h
  | cons c cs =>
    show (offsets.addAll H (o1.addCall H c) cs).window =
      (offsets.addAll H (o2.addCall H c) cs).window
    rw [offsets.addCall_congr H h c]

theorem offsets.lookup_congr {o1 o2 : offsets} (h : o1.window = o2.window)
    (key topic : String) (p : Int) : o1.lookup key topic p = o2.lookup key topic p := by
  simp [offsets.lookup, h]

theorem GoMap.sum_set {K V : Type} [DecidableEq K] (f : V → Int) (m : GoMap K V) (k : K)
    (v : V) :
    ((m.set k v).map fun e => f e.2).sum =
      (m.map fun e => f e.2).sum - ((m.get? k).map f).getD 0 + f v := by
  induction m with
  | nil => simp [GoMap.set, GoMap.get?]
  | cons hd tl ih =>
    obtain ⟨a, b⟩ := hd
    by_cases h : a = k
    · simp [GoMap.set, GoMap.get?, h]
      omega
    · simp [GoMap.set, GoMap.get?, h, ih]
      omega

theorem sum_map_flatMap {α β : Type} (g : β → Int) (f : α → List β) (l : List α) :
    ((l.flatMap f).map g).sum = (l.map fun x => ((f x).map g).sum).sum := by
  induction l with
  | nil => rfl
  | cons x l ih => simp [List.flatMap_cons, ih]

theorem totalCount_eq (w : Window) :
    totalCount w =
      (w.map fun e => (e.2.map fun e2 => (e2.2.map fun pe => pe.2.count).sum).sum).sum := by
  unfold totalCount entriesOf
  rw [sum_map_flatMap]
  congr 1
  apply List.map_congr_left
  intro e _
  unfold keyEntries
  rw [sum_map_flatMap]
  congr 1
  apply List.map_congr_left
  intro e2 _
  simp [topicEntries, List.map_map, Function.comp_def]

/-- One call of `add` changes the sum of the counts of the window by the change
of the count it addresses. -/
theorem offsets.totalCount_addCall (H : Helpers) (o : offsets) (c : AddCall) :
    totalCount (o.addCall H c).window =
      totalCount o.window -
        ((o.lookup (H.concatKeys c.fsmId c.fsmAlias) c.topic c.topic_partition).map
          fun old => old.count).getD 0 +
        ((o.lookup (H.concatKeys c.fsmId c.fsmAlias) c.topic c.topic_partition).map
          fun old => wrapInt64 (old.count + 1)).getD 1 := by
  rw [offsets.addCall_congr H (show o.window = (offsets.mk (some o.window)).window from rfl)]
  unfold offsets.lookup
  generalize o.window = m
  simp only [totalCount_eq, offsets.addCall, offsets.add]
  have s1 := fun (v : GoMap String (GoMap Int offsetInfo)) =>
    GoMap.sum_set (fun aux : GoMap String (GoMap Int offsetInfo) =>
      (aux.map fun e2 => (e2.2.map fun pe => pe.2.count).sum).sum) m
      (H.concatKeys c.fsmId c.fsmAlias) v
  cases h1 : m.get? (H.concatKeys c.fsmId c.fsmAlias) with
  | none =>
    simp only [offsets.window_mk_some, s1, h1]
    simp
  | some aux =>
    have s2 := fun (v : GoMap Int offsetInfo) =>
      GoMap.sum_set (fun aux2 : GoMap Int offsetInfo => (aux2.map fun pe => pe.2.count).sum)
        aux c.topic v
    cases h2 : aux.get? c.topic with
    | none =>
      simp only [offsets.window_mk_some, s1, s2, h1, h2]
      simp
      omega
    | some aux2 =>
      have s3 := fun (v : offsetInfo) =>
        GoMap.sum_set (fun oi : offsetInfo => oi.count) aux2 c.topic_partition v
      cases h3 : aux2.get? c.topic_partition with
      | none =>
        simp only [offsets.window_mk_some, s1, s2, s3, h1, h2, h3]
        simp
        omega
      | some old =>
        simp only [offsets.window_mk_some, s1, s2, s3, h1, h2, h3]
        simp
        omega

/-- In `int64` arithmetic the counts of the window add up to the counts before
the calls plus the number of calls. -/
theorem offsets.totalCount_addAll_wrap (H : Helpers) (cs : List AddCall) (o : offsets) :
    wrapInt64 (totalCount (o.addAll H cs).window) =
      wrapInt64 (totalCount o.window + cs.length) := by
  induction cs generalizing o with
  | nil => simp [offsets.addAll]
  | cons c cs ih =>
    show wrapInt64 (totalCount (offsets.addAll H (o.addCall H c) cs).window) = _
    rw [ih, offsets.totalCount_addCall]
    simp only [List.length_cons, Nat.cast_add, Nat.cast_one]
    cases o.lookup (H.concatKeys c.fsmId c.fsmAlias) c.topic c.topic_partition with
    | none =>
      simp only [Option.map_none', Option.getD_none]
      congr 1
      omega
    | some old =>
      simp only [Option.map_some', Option.getD_some]
      unfold wrapInt64
      omega

/-- Fewer than `2^63` calls on the nil window: the counts of the window add up
to the number of calls. -/
theorem offsets.totalCount_addAll_nil (H : Helpers) (cs : List AddCall)
    (hlen : cs.length < 2 ^ 63) :
    totalCount (offsets.addAll H ⟨none⟩ cs).window = cs.length := by
  induction cs using List.reverseRecOn with
  | nil => rfl
  | append_singleton l c ih =>
    have hlen' : l.length + 1 < 9223372036854775808 := by
      simpa using hlen
    have hl : l.length < 2 ^ 63 := by
      have : l.length < 9223372036854775808 := by omega
      simpa using this
    have hfold : offsets.addAll H ⟨none⟩ (l ++ [c]) =
        (offsets.addAll H ⟨none⟩ l).addCall H c := by
      simp [offsets.addAll, List.foldl_append]
    rw [hfold, offsets.totalCount_addCall, ih hl]
    have hlook := offsets.lookup_addAll H l ⟨none⟩ (H.concatKeys c.fsmId c.fsmAlias) c.topic
      c.topic_partition
    have hnone : (offsets.mk none).lookup (H.concatKeys c.fsmId c.fsmAlias) c.topic
        c.topic_partition = none := rfl
    rw [hnone, foldCall_foldl_none] at hlook
    cases hold : (offsets.addAll H ⟨none⟩ l).lookup (H.concatKeys c.fsmId c.fsmAlias) c.topic
        c.topic_partition with
    | none =>
      simp only [Option.map_none', Option.getD_none, List.length_append, List.length_singleton,
        Nat.cast_add, Nat.cast_one]
      omega
    | some old =>
      rw [hold] at hlook
      have hcount := summaryOf_count hlook.symm
      have hle : (l.filter (AddCall.targets H (H.concatKeys c.fsmId c.fsmAlias) c.topic
          c.topic_partition)).length ≤ l.length := List.length_filter_le _ _
      have hlt : (l.filter (AddCall.targets H (H.concatKeys c.fsmId c.fsmAlias) c.topic
          c.topic_partition)).length < 2 ^ 63 := lt_of_le_of_lt hle hl
      rw [wrapInt64_natCast hlt] at hcount
      have hstep : wrapInt64 (old.count + 1) = old.count + 1 := by
        apply wrapInt64_of_range <;> omega
      simp only [Option.map_some', Option.getD_some, hstep, List.length_append,
        List.length_singleton, Nat.cast_add, Nat.cast_one]
      omega

/-- C5: `flush` leaves the window empty and returns the batches of the entries
of the flushed window only; calls of `add` performed after the flush build the
same window, and the same later flush result, as on a fresh window, so that
every summary then accounts for exactly the later calls addressing it and the
counts of the window add up to the number of later calls (in `int64`
arithmetic, and exactly for fewer than `2^63` calls); a flush repeated at once
returns no query. -/
theorem C5_drain_boundary (H : Helpers) (ord ord2 : RangeOrder) (w : offsets)
    (A : List AddCall) :
    (w.flush H ord).1.window = [] ∧
    ((w.flush H ord).2 = batchesOf H (visited ord w.window) ∧
      (visited ord w.window).Perm (entriesOf w.window)) ∧
    ((w.flush H ord).1.flush H ord2).2 = [] ∧
    ((w.flush H ord).1.addAll H A).window = (offsets.addAll H ⟨none⟩ A).window ∧
    (((w.flush H ord).1.addAll H A).flush H ord2).2 =
      ((offsets.addAll H ⟨none⟩ A).flush H ord2).2 ∧
    (∀ (key topic : String) (p : Int),
      ((w.flush H ord).1.addAll H A).lookup key topic p =
        summaryOf (A.filter (AddCall.targets H key topic p))) ∧
    wrapInt64 (totalCount ((w.flush H ord).1.addAll H A).window) = wrapInt64 A.length ∧
    (A.length < 2 ^ 63 → totalCount ((w.flush H ord).1.addAll H A).window = A.length) := by
  have hempty := offsets.flush_window H ord w
  have hfresh : (w.flush H ord).1.window = (offsets.mk none).window := hempty
  have hsame := offsets.addAll_window_congr H hfresh A
  refine ⟨hempty, ⟨offsets.flush_queries H ord w, visited_perm ord w.window⟩, ?_, hsame, ?_,
    ?_, ?_, ?_⟩
  · rw [offsets.flush_queries, hempty]
    have hv : visited ord2 [] = [] := by
      simpa [entriesOf] using visited_perm ord2 []
    rw [hv]
    rfl
  · rw [offsets.flush_queries, offsets.flush_queries, hsame]
  · intro key topic p
    rw [offsets.lookup_congr hsame, offsets.lookup_addAll, ← foldCall_foldl_none]
    rfl
  · rw [offsets.totalCount_addAll_wrap, hempty]
    simp [totalCount, entriesOf]
  · intro hlen
    rw [hsame]
    exact offsets.totalCount_addAll_nil H A hlen

/-! ## mariaDB.getLastNFSMs -/

theorem scanRows_ok (rows : List Row) (m : GoMap String fsm) :
    scanRows m (rows.map Except.ok) = Except.ok (rows.foldl groupRow m) := by
  induction rows generalizing m with
  | nil => rfl
  | cons r rows ih => simp [scanRows, ih]

theorem foldl_append_snd {K V : Type} (l : List (K × V)) (acc : List V) :
    l.foldl (fun fsms e => fsms ++ [e.2]) acc = acc ++ l.map Prod.snd := by
  induction l generalizing acc with
  | nil => simp
  | cons e l ih => simp [ih]

/-- When every row scans, `getLastNFSMs` returns the views grouped by the scan
loop, in the order of the final `range`, and no error. -/
theorem getLastNFSMs_storeOf (ord : RangeOrder) (rows : List Row) (n : Int) :
    getLastNFSMs ord (storeOf rows) n =
      ((ord.perm (rows.foldl groupRow [])).map Prod.snd, none) := by
  simp [getLastNFSMs, storeOf, scanRows_ok, foldl_append_snd]

theorem GoMap.get?_eq_none_iff {K V : Type} [DecidableEq K] (m : GoMap K V) (k : K) :
    m.get? k = none ↔ k ∉ m.keys := by
  induction m with
  | nil => simp [GoMap.get?, GoMap.keys]
  | cons hd tl ih =>
    obtain ⟨a, b⟩ := hd
    by_cases h : a = k
    · simp [GoMap.get?, GoMap.keys, h]
    · have h' : ¬ k = a := fun e => h e.symm
      simpa [GoMap.get?, GoMap.keys, h, h'] using ih

theorem GoMap.keys_set {K V : Type} [DecidableEq K] (m : GoMap K V) (k : K) (v : V) :
    (m.set k v).keys = if k ∈ m.keys then m.keys else m.keys ++ [k] := by
  induction m with
  | nil => simp [GoMap.set, GoMap.keys]
  | cons hd tl ih =>
    obtain ⟨a, b⟩ := hd
    by_cases h : a = k
    · simp [GoMap.set, GoMap.keys, h]
    · have h' : ¬ k = a := fun e => h e.symm
      have ih' : List.map Prod.fst (GoMap.set tl k v) =
          if k ∈ List.map Prod.fst tl then List.map Prod.fst tl
          else List.map Prod.fst tl ++ [k] := ih
      simp only [GoMap.set, GoMap.keys, h, if_false, List.map_cons, ih', List.mem_cons, h',
        false_or]
      split_ifs <;> simp

theorem GoMap.get?_of_mem {K V : Type} [DecidableEq K] (m : GoMap K V)
    (hnd : m.keys.Nodup) {k : K} {v : V} (h : (k, v) ∈ m) : m.get? k = some v := by
  induction m with
  | nil => simp at h
  | cons hd tl ih =>
    obtain ⟨a, b⟩ := hd
    have hnd' : a ∉ GoMap.keys tl ∧ (GoMap.keys tl).Nodup := by
      simpa [GoMap.keys] using hnd
    rcases List.mem_cons.mp h with h | h
    · obtain ⟨rfl, rfl⟩ := Prod.mk.inj h
      simp [GoMap.get?]
    · have hk : k ∈ GoMap.keys tl := List.mem_map.mpr ⟨(k, v), h, rfl⟩
      have hne : ¬ a = k := fun e => hnd'.1 (e ▸ hk)
      simpa [GoMap.get?, hne] using ih hnd'.2 h

theorem GoMap.mem_of_get? {K V : Type} [DecidableEq K] (m : GoMap K V) {k : K} {v : V}
    (h : m.get? k = some v) : (k, v) ∈ m := by
  induction m with
  | nil => simp [GoMap.get?] at h
  | cons hd tl ih =>
    obtain ⟨a, b⟩ := hd
    by_cases hak : a = k
    · subst hak
      simp [GoMap.get?] at h
      simp [h]
    · simp only [GoMap.get?, hak, if_false] at h
      exact List.mem_cons_of_mem _ (ih h)

theorem groupRow_keys (m : GoMap String fsm) (r : Row) :
    (groupRow m r).keys = if r.fsmID ∈ m.keys then m.keys else m.keys ++ [r.fsmID] := by
  simp only [groupRow, GoMap.keys_set]

theorem firstAppearances_nodup (l : List String) : (firstAppearances l).Nodup := by
  induction l with
  | nil => simp [firstAppearances]
  | cons x xs ih =>
    simp only [firstAppearances, List.nodup_cons]
    exact ⟨by simp [List.mem_filter], ih.filter _⟩

theorem mem_firstAppearances (l : List String) (y : String) :
    y ∈ firstAppearances l ↔ y ∈ l := by
  induction l with
  | nil => simp [firstAppearances]
  | cons x xs ih =>
    by_cases h : y = x
    · simp [firstAppearances, h]
    · simp [firstAppearances, List.mem_filter, ih, h]

theorem foldl_groupRow_keys (rows : List Row) (m : GoMap String fsm) :
    (rows.foldl groupRow m).keys =
      m.keys ++ (firstAppearances (rows.map Row.fsmID)).filter fun y => y ∉ m.keys := by
  induction rows generalizing m with
  | nil => simp [firstAppearances]
  | cons r rows ih =>
    rw [List.foldl_cons, ih, groupRow_keys]
    by_cases h : r.fsmID ∈ m.keys
    · simp only [h, if_true, List.map_cons, firstAppearances, List.filter_cons, not_true,
        decide_False, List.filter_filter]
      congr 1
      apply List.filter_congr
      intro y _
      by_cases hy : y = r.fsmID
      · simp [hy, h]
      · simp [hy]
    · simp only [h, if_false, List.map_cons, firstAppearances, List.filter_cons, not_false_eq_true,
        decide_True, if_true, List.filter_filter, List.append_assoc, List.singleton_append]
      congr 2
      apply List.filter_congr
      intro y _
      by_cases hy : y = r.fsmID
      · simp [hy]
      · simp [hy]

/-- The view stored under an identity after one row. -/
theorem groupRow_get? (m : GoMap String fsm) (r : Row) (k : String) :
    (groupRow m r).get? k =
      if r.fsmID = k then
        some { ID := ((m.get? r.fsmID).getD ⟨r.fsmID, r.created, []⟩).ID
               Created := ((m.get? r.fsmID).getD ⟨r.fsmID, r.created, []⟩).Created
               Topics := ((m.get? r.fsmID).getD ⟨r.fsmID, r.created, []⟩).Topics.set r.topicValue
                 { Partitions :=
                    match (((((m.get? r.fsmID).getD ⟨r.fsmID, r.created, []⟩).Topics.get?
                        r.topicValue).getD ⟨[], 0⟩).Partitions.get? r.partitionValue) with
                    | some _ => ((((m.get? r.fsmID).getD ⟨r.fsmID, r.created, []⟩).Topics.get?
                        r.topicValue).getD ⟨[], 0⟩).Partitions
                    | none => ((((m.get? r.fsmID).getD ⟨r.fsmID, r.created, []⟩).Topics.get?
                        r.topicValue).getD ⟨[], 0⟩).Partitions.set r.partitionValue r.partition
                   Count := ((((m.get? r.fsmID).getD ⟨r.fsmID, r.created, []⟩).Topics.get?
                        r.topicValue).getD ⟨[], 0⟩).Count } }
      else m.get? k := by
  unfold groupRow
  rw [GoMap.get?_set]
  by_cases h : r.fsmID = k
  · simp only [h, if_true]
    cases h1 : m.get? k with
    | none =>
      simp only [Option.getD_none, GoMap.get?, Row.partition]
    | some f =>
      simp only [Option.getD_some]
      cases h2 : f.Topics.get? r.topicValue <;> simp only [Option.getD_none, Option.getD_some,
        Row.partition]
  · simp only [h, if_false]

/-- One row writes its partition entry unless the map already holds one for the
same identity, topic and partition, and changes no other partition entry. -/
theorem partitionIn_groupRow (m : GoMap String fsm) (r : Row) (k tv : String) (pv : Int) :
    partitionIn (groupRow m r) k tv pv =
      if r.fsmID = k ∧ r.topicValue = tv ∧ r.partitionValue = pv then
        match partitionIn m k tv pv with
        | some x => some x
        | none => some r.partition
      else partitionIn m k tv pv := by
  unfold partitionIn
  rw [groupRow_get?]
  by_cases hk : r.fsmID = k
  · subst hk
    simp only [if_true, true_and, fsm.partitionAt, GoMap.get?_set]
    cases h1 : m.get? r.fsmID with
    | none =>
      by_cases ht : r.topicValue = tv
      · subst ht
        by_cases hp : r.partitionValue = pv
        · simp [GoMap.get?, GoMap.get?_set, hp]
        · simp [GoMap.get?, GoMap.get?_set, hp]
      · simp [GoMap.get?, ht]
    | some f =>
      by_cases ht : r.topicValue = tv
      · subst ht
        simp only [Option.getD_some, if_true, true_and]
        cases h2 : f.Topics.get? r.topicValue with
        | none =>
          by_cases hp : r.partitionValue = pv
          · simp [GoMap.get?, GoMap.get?_set, hp]
          · simp [GoMap.get?, GoMap.get?_set, hp]
        | some t =>
          simp only [Option.getD_some]
          cases h3 : t.Partitions.get? r.partitionValue with
          | none =>
            by_cases hp : r.partitionValue = pv
            · subst hp
              simp [GoMap.get?_set, h3]
            · simp [GoMap.get?_set, hp]
          | some x =>
            by_cases hp : r.partitionValue = pv
            · subst hp
              simp [h3]
            · simp [hp]
      · simp [ht]
  · simp [hk]

/-- One row adds its topic to the view of its identity and no other topic. -/
theorem topicIn_groupRow_isSome (m : GoMap String fsm) (r : Row) (k tv : String) :
    (topicIn (groupRow m r) k tv).isSome =
      ((topicIn m k tv).isSome || decide (r.fsmID = k ∧ r.topicValue = tv)) := by
  unfold topicIn
  rw [groupRow_get?]
  by_cases hk : r.fsmID = k
  · subst hk
    simp only [if_true, true_and, GoMap.get?_set]
    by_cases ht : r.topicValue = tv
    · simp [ht]
    · cases h1 : m.get? r.fsmID <;> simp [ht, GoMap.get?]
  · simp [hk]

/-- The identity and creation time of the view stored under a key after one
row. -/
theorem groupRow_get?_header (m : GoMap String fsm) (r : Row) (k : String) :
    ((groupRow m r).get? k).map (fun f => (f.ID, f.Created)) =
      match (m.get? k).map (fun f => (f.ID, f.Created)) with
      | some x => some x
      | none => if r.fsmID = k then some (k, r.created) else none := by
  rw [groupRow_get?]
  by_cases hk : r.fsmID = k
  · subst hk
    cases h1 : m.get? r.fsmID <;> simp
  · cases h1 : m.get? k <;> simp [hk]

theorem partitionIn_foldl (rows : List Row) (m : GoMap String fsm) (k tv : String) (pv : Int) :
    partitionIn (rows.foldl groupRow m) k tv pv =
      match partitionIn m k tv pv with
      | some x => some x
      | none => (rows.find? fun r => decide (r.fsmID = k ∧ r.topicValue = tv ∧
          r.partitionValue = pv)).map Row.partition := by
  induction rows generalizing m with
  | nil =>
    simp only [List.foldl_nil, List.find?_nil, Option.map_none']
    cases partitionIn m k tv pv <;> rfl
  | cons r rows ih =>
    rw [List.foldl_cons, ih, partitionIn_groupRow]
    by_cases h : r.fsmID = k ∧ r.topicValue = tv ∧ r.partitionValue = pv
    · cases partitionIn m k tv pv <;> simp [List.find?_cons, h]
    · cases partitionIn m k tv pv <;> simp [List.find?_cons, h]

theorem topicIn_foldl_isSome (rows : List Row) (m : GoMap String fsm) (k tv : String) :
    (topicIn (rows.foldl groupRow m) k tv).isSome =
      ((topicIn m k tv).isSome ||
        rows.any fun r => decide (r.fsmID = k ∧ r.topicValue = tv)) := by
  induction rows generalizing m with
  | nil => simp
  | cons r rows ih =>
    rw [List.foldl_cons, ih, topicIn_groupRow_isSome, List.any_cons, Bool.or_assoc]

theorem header_foldl (rows : List Row) (m : GoMap String fsm) (k : String) :
    ((rows.foldl groupRow m).get? k).map (fun f => (f.ID, f.Created)) =
      match (m.get? k).map (fun f => (f.ID, f.Created)) with
      | some x => some x
      | none => (rows.find? fun r => decide (r.fsmID = k)).map fun r => (k, r.created) := by
  induction rows generalizing m with
  | nil =>
    simp only [List.foldl_nil, List.find?_nil, Option.map_none']
    cases (m.get? k).map (fun f => (f.ID, f.Created)) <;> rfl
  | cons r rows ih =>
    rw [List.foldl_cons, ih, groupRow_get?_header]
    by_cases h : r.fsmID = k
    · cases (m.get? k).map (fun f => (f.ID, f.Created)) <;> simp [List.find?_cons, h]
    · cases (m.get? k).map (fun f => (f.ID, f.Created)) <;> simp [List.find?_cons, h]

theorem foldl_groupRow_keys_nil (rows : List Row) :
    (rows.foldl groupRow []).keys = firstAppearances (rows.map Row.fsmID) := by
  rw [foldl_groupRow_keys]
  simp [GoMap.keys]

/-- The views `getLastNFSMs` returns are the ones its map holds. -/
theorem mem_getLastNFSMs (ord : RangeOrder) (rows : List Row) (n : Int) (f : fsm) :
    f ∈ (getLastNFSMs ord (storeOf rows) n).1 ↔
      ∃ k, (rows.foldl groupRow []).get? k = some f := by
  rw [getLastNFSMs_storeOf]
  have hnd : (rows.foldl groupRow []).keys.Nodup := by
    rw [foldl_groupRow_keys_nil]
    exact firstAppearances_nodup _
  constructor
  · intro hf
    obtain ⟨⟨k, f'⟩, he, rfl⟩ := List.mem_map.mp hf
    exact ⟨k, GoMap.get?_of_mem _ hnd ((ord.isPerm _).mem_iff.mp he)⟩
  · rintro ⟨k, hk⟩
    exact List.mem_map.mpr ⟨(k, f), (ord.isPerm _).mem_iff.mpr (GoMap.mem_of_get? _ hk), rfl⟩

/-- A view stored under a key carries that key as its ID and the creation time
of the first row of that identity. -/
theorem header_of_get? (rows : List Row) {k : String} {f : fsm}
    (h : (rows.foldl groupRow []).get? k = some f) :
    f.ID = k ∧ ∃ r, rows.find? (fun r => decide (r.fsmID = k)) = some r ∧
      f.Created = r.created := by
  have hh := header_foldl rows [] k
  rw [h] at hh
  simp only [GoMap.get?, Option.map_none', Option.map_some'] at hh
  cases hfind : rows.find? (fun r => decide (r.fsmID = k)) with
  | none => simp [hfind] at hh
  | some r =>
    rw [hfind] at hh
    simp only [Option.map_some', Option.some.injEq, Prod.mk.injEq] at hh
    exact ⟨hh.1, r, rfl, hh.2⟩

theorem getLastNFSMs_ids (ord : RangeOrder) (rows : List Row) (n : Int) :
    ((getLastNFSMs ord (storeOf rows) n).1.map fsm.ID).Perm
      (firstAppearances (rows.map Row.fsmID)) := by
  rw [getLastNFSMs_storeOf, ← foldl_groupRow_keys_nil]
  have hnd : (rows.foldl groupRow []).keys.Nodup := by
    rw [foldl_groupRow_keys_nil]
    exact firstAppearances_nodup _
  have hid : ∀ e ∈ rows.foldl groupRow [], e.2.ID = e.1 := by
    intro e he
    exact (header_of_get? rows (GoMap.get?_of_mem _ hnd (show (e.1, e.2) ∈ _ from he))).1
  have h1 : ((ord.perm (rows.foldl groupRow [])).map Prod.snd).map fsm.ID =
      (ord.perm (rows.foldl groupRow [])).map Prod.fst := by
    rw [List.map_map]
    apply List.map_congr_left
    intro e he
    exact hid e ((ord.isPerm _).mem_iff.mp he)
  show (((ord.perm (rows.foldl groupRow [])).map Prod.snd).map fsm.ID).Perm _
  rw [h1]
  exact (ord.isPerm _).map Prod.fst

theorem find?_sameKey_of_nodup (rows : List Row)
    (huniq : (rows.map fun r => (r.fsmID, r.topicValue, r.partitionValue)).Nodup)
    {r : Row} (hr : r ∈ rows) : rows.find? r.sameKey = some r := by
  induction rows with
  | nil => simp at hr
  | cons x xs ih =>
    simp only [List.map_cons, List.nodup_cons] at huniq
    by_cases hx : r.sameKey x = true
    · have hkey : (x.fsmID, x.topicValue, x.partitionValue) =
          (r.fsmID, r.topicValue, r.partitionValue) := by
        simp only [Row.sameKey, decide_eq_true_eq] at hx
        simp [hx]
      rcases List.mem_cons.mp hr with h | h
      · subst h
        simp [List.find?_cons, hx]
      · exfalso
        apply huniq.1
        rw [hkey]
        exact List.mem_map.mpr ⟨r, h, rfl⟩
    · rcases List.mem_cons.mp hr with h | h
      · exfalso
        apply hx
        rw [h]
        simp [Row.sameKey]
      · simp only [List.find?_cons, hx]
        exact ih huniq.2 h

/-- For every row, the view of its identity holds, at the topic and partition
of the row, the entry of the first row that carries the same identity, topic
and partition. -/
theorem getLastNFSMs_first_row (ord : RangeOrder) (rows : List Row) (n : Int) (r : Row)
    (hr : r ∈ rows) :
    ∃ f ∈ (getLastNFSMs ord (storeOf rows) n).1, f.ID = r.fsmID ∧
      f.partitionAt r.topicValue r.partitionValue =
        (rows.find? r.sameKey).map Row.partition := by
  have hp := partitionIn_foldl rows [] r.fsmID r.topicValue r.partitionValue
  have hsome : (rows.find? r.sameKey).isSome := by
    rw [List.find?_isSome]
    exact ⟨r, hr, by simp [Row.sameKey]⟩
  simp only [partitionIn, GoMap.get?] at hp
  have hp' : (match (rows.foldl groupRow []).get? r.fsmID with
      | none => none
      | some f => f.partitionAt r.topicValue r.partitionValue) =
      (rows.find? r.sameKey).map Row.partition := hp
  cases hget : (rows.foldl groupRow []).get? r.fsmID with
  | none =>
    rw [hget] at hp'
    cases hf : rows.find? r.sameKey with
    | none => simp [hf] at hsome
    | some x => simp [hf] at hp'
  | some f =>
    rw [hget] at hp'
    exact ⟨f, (mem_getLastNFSMs ord rows n f).mpr ⟨_, hget⟩, (header_of_get? rows hget).1, hp'⟩

theorem firstAppearances_length (l : List String) :
    (firstAppearances l).length = l.toFinset.card := by
  rw [← List.toFinset_card_of_nodup (firstAppearances_nodup l)]
  congr 1
  ext y
  simp [mem_firstAppearances]

/-- C6, two rows with the same `(fsmID, topic, partition)`, the second with other
offsets and count: the partition entry of the view is the one of the first
row, not the one of the last row. -/
theorem C6_later_row_does_not_overwrite :
    (getLastNFSMs RangeOrder.stored
        (storeOf [⟨"a", 1, "t", 0, 100, 105, 5⟩, ⟨"a", 1, "t", 0, 200, 210, 7⟩]) 10).1 =
      [⟨"a", 1, [("t", ⟨[(0, ⟨100, 105, 5⟩)], 0⟩)]⟩] ∧
    (∀ f ∈ (getLastNFSMs RangeOrder.stored
        (storeOf [⟨"a", 1, "t", 0, 100, 105, 5⟩, ⟨"a", 1, "t", 0, 200, 210, 7⟩]) 10).1,
      f.partitionAt "t" 0 ≠ some (Row.partition ⟨"a", 1, "t", 0, 200, 210, 7⟩)) := by
  decide

/-- C6, as the code has it: for every row, the view of its identity holds, at
the topic and partition of the row, the start, end and count of the first row
in row order that carries the same `(fsmID, topic, partition)`; a later row
with the same key neither overwrites the entry nor is combined with it. -/
theorem C6_first_row_is_kept (ord : RangeOrder) (rows : List Row) (n : Int) (r : Row)
    (hr : r ∈ rows) :
    ∃ f ∈ (getLastNFSMs ord (storeOf rows) n).1, f.ID = r.fsmID ∧
      ∃ first, rows.find? r.sameKey = some first ∧
        f.partitionAt r.topicValue r.partitionValue =
          some { Start := first.startOffset, End := first.lastOffset, Count := first.count } := by
  obtain ⟨f, hf, hid, hpart⟩ := getLastNFSMs_first_row ord rows n r hr
  have hsome : (rows.find? r.sameKey).isSome := by
    rw [List.find?_isSome]
    exact ⟨r, hr, by simp [Row.sameKey]⟩
  obtain ⟨first, hfirst⟩ := Option.isSome_iff_exists.mp hsome
  refine ⟨f, hf, hid, first, hfirst, ?_⟩
  rw [hpart, hfirst]
  rfl

/-- C6 at two rows with the same key, read at the second row: the entry is the
one of the first row. -/
theorem C6_first_row_is_kept_witness :
    ∃ f ∈ (getLastNFSMs RangeOrder.stored
        (storeOf [⟨"a", 1, "t", 0, 100, 105, 5⟩, ⟨"a", 1, "t", 0, 200, 210, 7⟩]) 10).1,
      f.ID = "a" ∧
      ∃ first, [(⟨"a", 1, "t", 0, 100, 105, 5⟩ : Row), ⟨"a", 1, "t", 0, 200, 210, 7⟩].find?
          (Row.sameKey ⟨"a", 1, "t", 0, 200, 210, 7⟩) = some first ∧
        f.partitionAt "t" 0 =
          some { Start := first.startOffset, End := first.lastOffset, Count := first.count } :=
  C6_first_row_is_kept RangeOrder.stored
    [⟨"a", 1, "t", 0, 100, 105, 5⟩, ⟨"a", 1, "t", 0, 200, 210, 7⟩] 10
    ⟨"a", 1, "t", 0, 200, 210, 7⟩ (by decide)

/-- C7, rows of identity `a` followed by rows of identity `b`, the final `range`
visiting the map backwards: the view of `b` precedes the view of `a` in the
returned slice, although `a` appears first in the rows. -/
theorem C7_output_order_not_preserved :
    ([(⟨"a", 2, "t", 0, 100, 105, 5⟩ : Row), ⟨"b", 1, "t", 0, 200, 210, 7⟩].map Row.fsmID =
      ["a", "b"]) ∧
    (getLastNFSMs RangeOrder.backwards
        (storeOf [⟨"a", 2, "t", 0, 100, 105, 5⟩, ⟨"b", 1, "t", 0, 200, 210, 7⟩]) 2).1.map
      fsm.ID = ["b", "a"] := by
  decide

/-- C7, as the code has it: the returned slice holds exactly one view per
identity of the rows, and the order of the views is the order of the `range`
over the grouping map: the IDs of the views are a rearrangement of the
identities listed in the order of their first appearance.  Only a `range` that
happens to visit the identities as they were inserted returns them in the
order of their first appearance. -/
theorem C7_identities_rearranged (ord : RangeOrder) (rows : List Row) (n : Int) :
    ((getLastNFSMs ord (storeOf rows) n).1.map fsm.ID).Perm
        (firstAppearances (rows.map Row.fsmID)) ∧
    ((getLastNFSMs ord (storeOf rows) n).1.map fsm.ID).Nodup ∧
    (∀ fsmID, fsmID ∈ (getLastNFSMs ord (storeOf rows) n).1.map fsm.ID ↔
      fsmID ∈ rows.map Row.fsmID) ∧
    (getLastNFSMs RangeOrder.stored (storeOf rows) n).1.map fsm.ID =
      firstAppearances (rows.map Row.fsmID) := by
  have hperm := getLastNFSMs_ids ord rows n
  refine ⟨hperm, (hperm.nodup_iff).mpr (firstAppearances_nodup _), ?_, ?_⟩
  · intro fsmID
    rw [hperm.mem_iff, mem_firstAppearances]
  · rw [getLastNFSMs_storeOf, ← foldl_groupRow_keys_nil]
    have hnd : (rows.foldl groupRow []).keys.Nodup := by
      rw [foldl_groupRow_keys_nil]
      exact firstAppearances_nodup _
    show ((rows.foldl groupRow []).map Prod.snd).map fsm.ID = _
    rw [List.map_map]
    apply List.map_congr_left
    intro e he
    exact (header_of_get? rows (GoMap.get?_of_mem _ hnd (show (e.1, e.2) ∈ _ from he))).1

/-- C8: when every row scans and no `(fsmID, topic, partition)` occurs twice,
`getLastNFSMs` returns no error and exactly one view per distinct `fsmID` of the
rows; each view has the ID and creation time of the first row of its identity;
for every row the view of its `fsmID` holds, under the topic and partition of
the row, the start, end and count of that row; and every topic and partition
of a view comes from a row of its identity. -/
theorem C8_grouping (ord : RangeOrder) (rows : List Row) (n : Int)
    (huniq : (rows.map fun r => (r.fsmID, r.topicValue, r.partitionValue)).Nodup) :
    (getLastNFSMs ord (storeOf rows) n).2 = none ∧
    ((getLastNFSMs ord (storeOf rows) n).1.map fsm.ID).Nodup ∧
    (∀ fsmID, fsmID ∈ (getLastNFSMs ord (storeOf rows) n).1.map fsm.ID ↔
      fsmID ∈ rows.map Row.fsmID) ∧
    (getLastNFSMs ord (storeOf rows) n).1.length = (rows.map Row.fsmID).toFinset.card ∧
    (∀ f ∈ (getLastNFSMs ord (storeOf rows) n).1,
      ∃ r, rows.find? (fun r => decide (r.fsmID = f.ID)) = some r ∧ f.Created = r.created) ∧
    (∀ r ∈ rows, ∃ f ∈ (getLastNFSMs ord (storeOf rows) n).1, f.ID = r.fsmID ∧
      ∃ t, f.Topics.get? r.topicValue = some t ∧
        t.Partitions.get? r.partitionValue =
          some { Start := r.startOffset, End := r.lastOffset, Count := r.count }) ∧
    (∀ f ∈ (getLastNFSMs ord (storeOf rows) n).1, ∀ tv t, f.Topics.get? tv = some t →
      ∃ r ∈ rows, r.fsmID = f.ID ∧ r.topicValue = tv) ∧
    (∀ f ∈ (getLastNFSMs ord (storeOf rows) n).1, ∀ tv t pv x, f.Topics.get? tv = some t →
      t.Partitions.get? pv = some x →
      ∃ r ∈ rows, r.fsmID = f.ID ∧ r.topicValue = tv ∧ r.partitionValue = pv ∧
        x = { Start := r.startOffset, End := r.lastOffset, Count := r.count }) := by
  have hperm := getLastNFSMs_ids ord rows n
  refine ⟨by rw [getLastNFSMs_storeOf], (hperm.nodup_iff).mpr (firstAppearances_nodup _),
    ?_, ?_, ?_, ?_, ?_, ?_⟩
  · intro fsmID
    rw [hperm.mem_iff, mem_firstAppearances]
  · rw [← firstAppearances_length, ← hperm.length_eq, List.length_map]
  · intro f hf
    obtain ⟨k, hk⟩ := (mem_getLastNFSMs ord rows n f).mp hf
    obtain ⟨hid, r, hfind, hcr⟩ := header_of_get? rows hk
    exact ⟨r, by rw [hid]; exact hfind, hcr⟩
  · intro r hr
    obtain ⟨f, hf, hid, hpart⟩ := getLastNFSMs_first_row ord rows n r hr
    rw [find?_sameKey_of_nodup rows huniq hr] at hpart
    refine ⟨f, hf, hid, ?_⟩
    unfold fsm.partitionAt at hpart
    cases ht : f.Topics.get? r.topicValue with
    | none => simp [ht] at hpart
    | some t =>
      rw [ht] at hpart
      exact ⟨t, rfl, hpart⟩
  · intro f hf tv t ht
    obtain ⟨k, hk⟩ := (mem_getLastNFSMs ord rows n f).mp hf
    have hid := (header_of_get? rows hk).1
    have h := topicIn_foldl_isSome rows [] k tv
    simp only [topicIn, hk, ht, GoMap.get?, Option.isSome_some, Option.isSome_none,
      Bool.false_or] at h
    obtain ⟨r, hr, hrk⟩ := List.any_eq_true.mp h.symm
    simp only [decide_eq_true_eq] at hrk
    exact ⟨r, hr, by rw [hid]; exact hrk.1, hrk.2⟩
  · intro f hf tv t pv x ht hx
    obtain ⟨k, hk⟩ := (mem_getLastNFSMs ord rows n f).mp hf
    have hid := (header_of_get? rows hk).1
    have h := partitionIn_foldl rows [] k tv pv
    have h' : partitionIn (rows.foldl groupRow []) k tv pv = some x := by
      simp [partitionIn, hk, fsm.partitionAt, ht, hx]
    rw [h'] at h
    change some x = (rows.find? fun r => decide (r.fsmID = k ∧ r.topicValue = tv ∧
        r.partitionValue = pv)).map Row.partition at h
    cases hfind : rows.find? (fun r => decide (r.fsmID = k ∧ r.topicValue = tv ∧
        r.partitionValue = pv)) with
    | none =>
      rw [hfind] at h
      exact absurd h (by simp)
    | some r =>
      rw [hfind] at h
      have hmem := List.mem_of_find?_eq_some hfind
      have hpred := List.find?_some hfind
      simp only [decide_eq_true_eq] at hpred
      simp only [Option.map_some', Option.some.injEq] at h
      exact ⟨r, hmem, by rw [hid]; exact hpred.1, hpred.2.1, hpred.2.2, h⟩

/-- C8 at three rows of two identities. -/
theorem C8_grouping_witness :
    (getLastNFSMs RangeOrder.backwards (storeOf
      [⟨"a", 2, "t", 0, 100, 105, 5⟩, ⟨"b", 1, "t", 0, 200, 210, 7⟩,
       ⟨"a", 2, "t", 1, 10, 15, 6⟩]) 2).2 = none ∧
    (getLastNFSMs RangeOrder.backwards (storeOf
      [⟨"a", 2, "t", 0, 100, 105, 5⟩, ⟨"b", 1, "t", 0, 200, 210, 7⟩,
       ⟨"a", 2, "t", 1, 10, 15, 6⟩]) 2).1.length = 2 :=
  ⟨(C8_grouping RangeOrder.backwards
      [⟨"a", 2, "t", 0, 100, 105, 5⟩, ⟨"b", 1, "t", 0, 200, 210, 7⟩,
       ⟨"a", 2, "t", 1, 10, 15, 6⟩] 2 (by decide)).1,
   by decide⟩

/-! ## serverHandler.latest -/

/-- C9, the requests `n=0`, `n=-5` and `n=abc` against an empty store: zero and
a negative number are not rejected, the store is queried with them; text that
does not parse is rejected with status 500, outside the 4xx range. -/
theorem C9_zero_and_negative_reach_the_store :
    serverHandler.latest (getLastNFSMs RangeOrder.stored (storeOf []))
        (fun _ => Except.ok "[]") "0" = { status := 200, queried := some 0 } ∧
    serverHandler.latest (getLastNFSMs RangeOrder.stored (storeOf []))
        (fun _ => Except.ok "[]") "-5" = { status := 200, queried := some (-5) } ∧
    serverHandler.latest (getLastNFSMs RangeOrder.stored (storeOf []))
        (fun _ => Except.ok "[]") "abc" = { status := 500, queried := none } := by
  decide

/-- C9, as the code has it: `getLastNFSMs` is called iff the parameter `n` is
absent or empty, then with 10, or is accepted by `strconv.Atoi`, then with the
parsed value whatever its sign; any other parameter is answered with an error
status and the store is not queried. -/
theorem C9_latest_queries_store (lastN : Int → List fsm × Option String)
    (marshal : List fsm → Except String String) (ns : String) :
    ((serverHandler.latest lastN marshal ns).queried =
        if ns = "" then some 10 else Atoi ns) ∧
    ((serverHandler.latest lastN marshal "").queried = some 10) ∧
    (∀ n, Atoi ns = some n → (serverHandler.latest lastN marshal ns).queried = some n) ∧
    ((ns ≠ "" ∧ Atoi ns = none) →
      (serverHandler.latest lastN marshal ns).queried = none ∧
      400 ≤ (serverHandler.latest lastN marshal ns).status) := by
  have hten : Atoi "10" = some 10 := by decide
  have hempty : Atoi "" = none := by decide
  have hq : ∀ s : String, (serverHandler.latest lastN marshal s).queried =
      if s = "" then some 10 else Atoi s := by
    intro s
    unfold serverHandler.latest
    by_cases hs : s = ""
    · simp only [hs, if_true, hten]
      split
      · rfl
      · split <;> rfl
    · simp only [hs, if_false]
      cases hp : Atoi s with
      | none => rfl
      | some n =>
        simp only []
        split
        · rfl
        · split <;> rfl
  refine ⟨hq ns, by rw [hq]; rfl, ?_, ?_⟩
  · intro n hn
    have hs : ns ≠ "" := by
      intro h
      rw [h, hempty] at hn
      exact Option.noConfusion hn
    rw [hq, if_neg hs, hn]
  · rintro ⟨hs, hnone⟩
    refine ⟨by rw [hq, if_neg hs, hnone], ?_⟩
    unfold serverHandler.latest
    simp only [hs, if_false, hnone]
    decide

end Bookie
